import Mathlib

/-!
Verification of the prediction-and-ranking core of the stock CRUD repository:
a shallow embedding of the `StockSorter` class (sortingAlgorithms module) and
the `StockRandomForest` class (randomForest module), together with proofs of
the specified properties.

Modelling conventions:
* JavaScript numbers are modelled as exact rationals (`ℚ`).
* JavaScript arrays are modelled as `List`s; the destructuring swap
  `[arr[i], arr[j]] = [arr[j], arr[i]]` is modelled by `swapL`.
* Thrown-and-caught errors are modelled with `Except String`.
* Wall-clock timing, console logging and ISO timestamps are not modelled.
-/

set_option maxHeartbeats 1000000

/-- JavaScript-style numeric field fallback, `parseFloat(x || d)`: a missing
field or the falsy number 0 falls through to the default. -/
def jsNum (x : Option ℚ) (d : ℚ) : ℚ :=
  match x with
  | some v => if v = 0 then d else v
  | none => d

/-- JavaScript-style string field fallback, `x || d`: a missing field or the
falsy empty string falls through to the default. -/
def jsStr (x : Option String) (d : String) : String :=
  match x with
  | some s => if s = "" then d else s
  | none => d

/-- One stock record as consumed by `StockSorter`; every field the comparator
registry reads. Date-valued fields are modelled as numeric timestamps. -/
structure StockRecord where
  close_price : Option ℚ := none
  current_price : Option ℚ := none
  volume : Option ℚ := none
  market_cap : Option ℚ := none
  symbol : Option String := none
  company_name : Option String := none
  sector : Option String := none
  date : Option ℚ := none
  created_at : Option ℚ := none
  change_percent : Option ℚ := none
  deriving DecidableEq, Inhabited

/-- Sign-valued comparison modelling `String.prototype.localeCompare` (locale
ordering modelled as the lexicographic order on strings; the sorting code only
ever consumes the sign of the result). -/
def localeCompareQ (s t : String) : ℚ :=
  if s < t then -1 else if t < s then 1 else 0

/-- Key read by the price comparators: `parseFloat(a.close_price || a.current_price || 0)`. -/
def priceKey (a : StockRecord) : ℚ := jsNum a.close_price (jsNum a.current_price 0)

/-- Key read by the volume comparators: `parseFloat(a.volume || 0)`. -/
def volumeKey (a : StockRecord) : ℚ := jsNum a.volume 0

/-- Key read by the market-cap comparators: `parseFloat(a.market_cap || 0)`. -/
def marketCapKey (a : StockRecord) : ℚ := jsNum a.market_cap 0

/-- Key read by the symbol comparators: `a.symbol || ''`. -/
def symbolKey (a : StockRecord) : String := jsStr a.symbol ""

/-- Key read by the company-name comparators: `a.company_name || ''`. -/
def nameKey (a : StockRecord) : String := jsStr a.company_name ""

/-- Key read by the sector comparators: `a.sector || ''`. -/
def sectorKey (a : StockRecord) : String := jsStr a.sector ""

/-- Key read by the date comparators: `new Date(a.date || a.created_at || 0)`,
with dates modelled as numeric timestamps. -/
def dateKey (a : StockRecord) : ℚ := jsNum a.date (jsNum a.created_at 0)

/-- Key read by the change-percent comparators: `parseFloat(a.change_percent || 0)`. -/
def changeKey (a : StockRecord) : ℚ := jsNum a.change_percent 0

/-- A comparator as stored in `this.compareFunctions`: a rational-valued
two-argument function whose sign decides the order. -/
abbrev Cmp := StockRecord → StockRecord → ℚ

/-- Total swap of two list positions, modelling the JavaScript destructuring
swap on an array (out-of-range indices read the default element, as the
in-bounds call sites never do). -/
def swapL {α : Type*} [Inhabited α] (l : List α) (i j : Nat) : List α :=
  (l.set i (l.getD j default)).set j (l.getD i default)

namespace StockSorter

/-- The comparator registry, the `this.compareFunctions` object literal. -/
def compareFunctions (sortBy : String) : Option Cmp :=
  if sortBy = "price_asc" then some (fun a b => priceKey a - priceKey b)
  else if sortBy = "price_desc" then some (fun a b => priceKey b - priceKey a)
  else if sortBy = "volume_asc" then some (fun a b => volumeKey a - volumeKey b)
  else if sortBy = "volume_desc" then some (fun a b => volumeKey b - volumeKey a)
  else if sortBy = "market_cap_asc" then some (fun a b => marketCapKey a - marketCapKey b)
  else if sortBy = "market_cap_desc" then some (fun a b => marketCapKey b - marketCapKey a)
  else if sortBy = "symbol_asc" then some (fun a b => localeCompareQ (symbolKey a) (symbolKey b))
  else if sortBy = "symbol_desc" then some (fun a b => localeCompareQ (symbolKey b) (symbolKey a))
  else if sortBy = "name_asc" then some (fun a b => localeCompareQ (nameKey a) (nameKey b))
  else if sortBy = "name_desc" then some (fun a b => localeCompareQ (nameKey b) (nameKey a))
  else if sortBy = "sector_asc" then some (fun a b => localeCompareQ (sectorKey a) (sectorKey b))
  else if sortBy = "sector_desc" then some (fun a b => localeCompareQ (sectorKey b) (sectorKey a))
  else if sortBy = "date_asc" then some (fun a b => dateKey a - dateKey b)
  else if sortBy = "date_desc" then some (fun a b => dateKey b - dateKey a)
  else if sortBy = "change_asc" then some (fun a b => changeKey a - changeKey b)
  else if sortBy = "change_desc" then some (fun a b => changeKey b - changeKey a)
  else none

/-- Lomuto partition inner loop (the `for j` loop of `_partition`). Here `s`
plays the role of `i + 1` from the source and `c` counts the remaining
iterations, so the loop scans indices `j, j+1, ..., j+c-1`. -/
def partitionLoop (cmp : Cmp) (pivot : StockRecord) :
    List StockRecord → Nat → Nat → Nat → List StockRecord × Nat
  | l, s, _, 0 => (l, s)
  | l, s, j, c + 1 =>
    if cmp (l.getD j default) pivot ≤ 0 then
      partitionLoop cmp pivot (swapL l s j) (s + 1) (j + 1) c
    else
      partitionLoop cmp pivot l s (j + 1) c

/-- The source's `_partition(arr, low, high, compareFunc)`: the pivot is the
last element of the range; after the scan the pivot is swapped into place. -/
def partitionJS (cmp : Cmp) (l : List StockRecord) (low high : Nat) :
    List StockRecord × Nat :=
  let pivot := l.getD high default
  let r := partitionLoop cmp pivot l low low (high - low)
  (swapL r.1 r.2 high, r.2)

theorem partitionLoop_snd_bounds (cmp : Cmp) (pivot : StockRecord) :
    ∀ (c : Nat) (l : List StockRecord) (s j : Nat),
      s ≤ (partitionLoop cmp pivot l s j c).2 ∧
        (partitionLoop cmp pivot l s j c).2 ≤ s + c := by
  intro c
  induction c with
  | zero => intro l s j; simp [partitionLoop]
  | succ c ih =>
    intro l s j
    rw [partitionLoop]
    split
    · have h := ih (swapL l s j) (s + 1) (j + 1)
      omega
    · have h := ih l s (j + 1)
      omega

theorem partitionJS_snd_bounds (cmp : Cmp) (l : List StockRecord) (low high : Nat)
    (h : low ≤ high) :
    low ≤ (partitionJS cmp l low high).2 ∧ (partitionJS cmp l low high).2 ≤ high := by
  have hb := partitionLoop_snd_bounds cmp (l.getD high default) (high - low) l low low
  simp only [partitionJS]
  omega

/-- The source's `_quickSortRecursive(arr, low, high, compareFunc)`. -/
def quickSortRecursive (cmp : Cmp) (l : List StockRecord) (low high : Nat) :
    List StockRecord :=
  if h : low < high then
    have hb := partitionJS_snd_bounds cmp l low high (Nat.le_of_lt h)
    quickSortRecursive cmp
      (quickSortRecursive cmp (partitionJS cmp l low high).1 low
        ((partitionJS cmp l low high).2 - 1))
      ((partitionJS cmp l low high).2 + 1) high
  else l
termination_by high + 1 - low
decreasing_by
  · omega
  · omega

/-- The source's `quickSort(arr, sortBy)`. Note that the `arr.length <= 1`
early return happens before the criterion is looked up. -/
def quickSort (arr : List StockRecord) (sortBy : String) :
    Except String (List StockRecord) :=
  if arr.length ≤ 1 then .ok arr
  else
    match compareFunctions sortBy with
    | none => .error ("Invalid sort criteria: " ++ sortBy)
    | some cmp => .ok (quickSortRecursive cmp arr 0 (arr.length - 1))

/-- The source's `_merge(left, right, compareFunc)`: linear merge preferring the
left element on ties. -/
def mergeJS (cmp : Cmp) : List StockRecord → List StockRecord → List StockRecord
  | [], r => r
  | x :: xs, [] => x :: xs
  | x :: xs, y :: ys =>
    if cmp x y ≤ 0 then x :: mergeJS cmp xs (y :: ys)
    else y :: mergeJS cmp (x :: xs) ys
termination_by l r => l.length + r.length

/-- The source's `_mergeSortRecursive(arr, compareFunc)`: split at the midpoint
and merge. -/
def mergeSortRecursive (cmp : Cmp) (l : List StockRecord) : List StockRecord :=
  if h : l.length ≤ 1 then l
  else
    mergeJS cmp (mergeSortRecursive cmp (l.take (l.length / 2)))
      (mergeSortRecursive cmp (l.drop (l.length / 2)))
termination_by l.length
decreasing_by
  · simp only [List.length_take]; omega
  · simp only [List.length_drop]; omega

/-- The source's `mergeSort(arr, sortBy)`. -/
def mergeSort (arr : List StockRecord) (sortBy : String) :
    Except String (List StockRecord) :=
  match compareFunctions sortBy with
  | none => .error ("Invalid sort criteria: " ++ sortBy)
  | some cmp => .ok (mergeSortRecursive cmp arr)

/-- One pass of the bubble sort inner loop (`for j`), performing `k` adjacent
compare-and-swap steps from the front of the list; returns the new list and the
`swapped` flag. -/
def bubblePass (cmp : Cmp) : List StockRecord → Nat → List StockRecord × Bool
  | l, 0 => (l, false)
  | [], _ + 1 => ([], false)
  | [x], _ + 1 => ([x], false)
  | x :: y :: t, k + 1 =>
    if 0 < cmp x y then
      let r := bubblePass cmp (x :: t) k
      (y :: r.1, true)
    else
      let r := bubblePass cmp (y :: t) k
      (x :: r.1, r.2)
termination_by l _ => l.length

/-- The bubble sort outer loop (`for i`): the pass at outer iteration `i`
performs `n - i - 1` comparisons, so `k` counts down from `n - 1`, and the loop
exits early when a pass performs no swap. -/
def bubbleLoop (cmp : Cmp) : List StockRecord → Nat → List StockRecord
  | l, 0 => l
  | l, k + 1 =>
    let r := bubblePass cmp l (k + 1)
    if r.2 then bubbleLoop cmp r.1 k else r.1

/-- The source's `bubbleSort(arr, sortBy)`. -/
def bubbleSort (arr : List StockRecord) (sortBy : String) :
    Except String (List StockRecord) :=
  match compareFunctions sortBy with
  | none => .error ("Invalid sort criteria: " ++ sortBy)
  | some cmp => .ok (bubbleLoop cmp arr (arr.length - 1))

/-- Index of the largest of node `i` and its in-range children, as computed by
the two `if` statements at the top of `_heapify`. -/
def heapifyLargest (cmp : Cmp) (l : List StockRecord) (n i : Nat) : Nat :=
  let largest1 :=
    if 2 * i + 1 < n ∧ 0 < cmp (l.getD (2 * i + 1) default) (l.getD i default) then 2 * i + 1
    else i
  if 2 * i + 2 < n ∧ 0 < cmp (l.getD (2 * i + 2) default) (l.getD largest1 default) then 2 * i + 2
  else largest1

theorem heapifyLargest_bounds (cmp : Cmp) (l : List StockRecord) (n i : Nat) :
    heapifyLargest cmp l n i = i ∨
      (i < heapifyLargest cmp l n i ∧ heapifyLargest cmp l n i < n) := by
  unfold heapifyLargest
  dsimp only
  split
  · next hA =>
    obtain ⟨h1, -⟩ := hA
    split
    · next hB => obtain ⟨h2, -⟩ := hB; right; omega
    · right; omega
  · split
    · next hB => obtain ⟨h2, -⟩ := hB; right; omega
    · left; rfl

/-- The source's `_heapify(arr, n, i, compareFunc)`: sift the value at `i` down
within the heap prefix of length `n`. -/
def heapifyJS (cmp : Cmp) (l : List StockRecord) (n i : Nat) : List StockRecord :=
  if heapifyLargest cmp l n i = i then l
  else heapifyJS cmp (swapL l i (heapifyLargest cmp l n i)) n (heapifyLargest cmp l n i)
termination_by n - i
decreasing_by
  have := heapifyLargest_bounds cmp l n i
  omega

/-- The heap-construction loop of `heapSort` (`for i = n/2 - 1; i >= 0; i--`);
the argument counts down, processing node `k` when it equals `k + 1`. -/
def buildLoop (cmp : Cmp) (l : List StockRecord) (n : Nat) : Nat → List StockRecord
  | 0 => l
  | k + 1 => buildLoop cmp (heapifyJS cmp l n k) n k

/-- The extraction loop of `heapSort` (`for i = n - 1; i > 0; i--`): swap the
root with position `i` and re-heapify the prefix of length `i`. -/
def extractLoop (cmp : Cmp) (l : List StockRecord) : Nat → List StockRecord
  | 0 => l
  | k + 1 => extractLoop cmp (heapifyJS cmp (swapL l 0 (k + 1)) (k + 1) 0) k

/-- The source's `heapSort(arr, sortBy)`. -/
def heapSort (arr : List StockRecord) (sortBy : String) :
    Except String (List StockRecord) :=
  match compareFunctions sortBy with
  | none => .error ("Invalid sort criteria: " ++ sortBy)
  | some cmp =>
    .ok (extractLoop cmp (buildLoop cmp arr arr.length (arr.length / 2)) (arr.length - 1))

/-- Result object of `smartSort` (execution time and timestamp omitted:
wall-clock time is not modelled). -/
structure SmartSortResult where
  sortedData : List StockRecord
  algorithm : String
  itemCount : Nat
  sortCriteria : String
  deriving DecidableEq

/-- The source's `smartSort(arr, sortBy, preferredAlgorithm)`: pick an algorithm
by size unless one is pinned, dispatch, and report the algorithm used (the
`default` switch branch falls back to quick sort and relabels). -/
def smartSort (arr : List StockRecord) (sortBy : String)
    (preferredAlgorithm : Option String) : Except String SmartSortResult :=
  let algorithm :=
    match preferredAlgorithm with
    | some a => a
    | none =>
      if arr.length ≤ 10 then "bubble"
      else if arr.length ≤ 1000 then "quick"
      else "merge"
  let run : Except String (List StockRecord × String) :=
    if algorithm = "quick" then (quickSort arr sortBy).map (fun s => (s, algorithm))
    else if algorithm = "merge" then (mergeSort arr sortBy).map (fun s => (s, algorithm))
    else if algorithm = "bubble" then (bubbleSort arr sortBy).map (fun s => (s, algorithm))
    else if algorithm = "heap" then (heapSort arr sortBy).map (fun s => (s, algorithm))
    else (quickSort arr sortBy).map (fun s => (s, "quick"))
  run.map (fun p =>
    { sortedData := p.1, algorithm := p.2, itemCount := arr.length, sortCriteria := sortBy })

/-- The comparator closure `multiSort` passes to the built-in sort: walk the
criteria in priority order, silently skipping names missing from the registry,
and return the first nonzero comparison result. -/
def multiCompare (criteria : List String) (a b : StockRecord) : ℚ :=
  match criteria with
  | [] => 0
  | c :: rest =>
    match compareFunctions c with
    | none => multiCompare rest a b
    | some f => if f a b = 0 then multiCompare rest a b else f a b

/-- Modelled from the spec: `multiSort` calls the JavaScript built-in
`Array.prototype.sort`, which is not part of this repository. ECMAScript 2019
requires it to be a stable comparison sort, and §4.3 of the spec asks for "a
stable underlying sort (language-native sort acceptable)", so it is modelled as
the stable top-down merge sort already present in this module. -/
def jsArraySort (cmp : Cmp) (l : List StockRecord) : List StockRecord :=
  mergeSortRecursive cmp l

/-- The source's `multiSort(arr, criteria)`. -/
def multiSort (arr : List StockRecord) (criteria : List String) : List StockRecord :=
  jsArraySort (multiCompare criteria) arr

end StockSorter

/-- One OHLCV bar as consumed by `StockRandomForest` (only the fields the
indicator pipeline reads: `close_price` and `volume`). -/
structure Bar where
  close_price : ℚ := 0
  volume : ℚ := 0
  deriving DecidableEq, Inhabited

/-- Stand-in for the floating-point `Math.sqrt` (an irrational-valued operation
that exact rationals cannot represent): the integer square root applied to
numerator and denominator. No claim in this development depends on the value of
a square root — it only flows into the `volatility` feature slot, whose value no
verified property inspects. -/
def jsSqrt (q : ℚ) : ℚ := (Nat.sqrt q.num.toNat : ℚ) / (Nat.sqrt q.den : ℚ)

namespace StockRandomForest

/-- The source's `calculateSMA(data, period)`: mean of the last `period` closes,
degrading to the latest close when data is short. -/
def calculateSMA (data : List Bar) (period : Nat) : ℚ :=
  if data.length < period then (data.getD (data.length - 1) default).close_price
  else
    (List.foldl (fun acc item => acc + item.close_price) 0
      (data.drop (data.length - period))) / (period : ℚ)

/-- The source's `calculateEMA(data, period)`: seeded with the first close and
iterated over the whole slice, degrading to the latest close when data is
short. -/
def calculateEMA (data : List Bar) (period : Nat) : ℚ :=
  if data.length < period then (data.getD (data.length - 1) default).close_price
  else
    let multiplier : ℚ := 2 / ((period : ℚ) + 1)
    List.foldl (fun ema item => item.close_price * multiplier + ema * (1 - multiplier))
      (data.getD 0 default).close_price (data.drop 1)

/-- The initial-averages loop of `calculateRSI`: total gains and losses over the
first `k` consecutive close-price changes (`i = 1 .. k` in the source; a change
of zero is added to the losses as `|0| = 0`). -/
def rsiInitial (data : List Bar) : Nat → ℚ × ℚ
  | 0 => (0, 0)
  | k + 1 =>
    let prev := rsiInitial data k
    let change := (data.getD (k + 1) default).close_price - (data.getD k default).close_price
    if 0 < change then (prev.1 + change, prev.2) else (prev.1, prev.2 + |change|)

/-- The Wilder smoothing loop of `calculateRSI` (`for i = period + 1; i <
data.length; i++`), rolling the average gain and loss forward. -/
def rsiSmooth (data : List Bar) (period : Nat) (avg : ℚ × ℚ) (i : Nat) : ℚ × ℚ :=
  if i < data.length then
    let change := (data.getD i default).close_price - (data.getD (i - 1) default).close_price
    let gain := if 0 < change then change else 0
    let loss := if change < 0 then |change| else 0
    rsiSmooth data period
      ((avg.1 * ((period : ℚ) - 1) + gain) / (period : ℚ),
       (avg.2 * ((period : ℚ) - 1) + loss) / (period : ℚ)) (i + 1)
  else avg
termination_by data.length - i

/-- The source's `calculateRSI(data, period)`: neutral 50 on short data, 100
when the smoothed average loss is zero, otherwise `100 - 100 / (1 + rs)`. -/
def calculateRSI (data : List Bar) (period : Nat) : ℚ :=
  if data.length < period + 1 then 50
  else
    let init := rsiInitial data period
    let avgGain := init.1 / (period : ℚ)
    let avgLoss := init.2 / (period : ℚ)
    let final := rsiSmooth data period (avgGain, avgLoss) (period + 1)
    if final.2 = 0 then 100
    else 100 - 100 / (1 + final.1 / final.2)

/-- The source's `calculateVolatility(data, period)`: population standard
deviation of the last `period` closes, 0 on short data. -/
def calculateVolatility (data : List Bar) (period : Nat) : ℚ :=
  if data.length < period then 0
  else
    let prices := (data.drop (data.length - period)).map (fun item => item.close_price)
    let mean := (List.foldl (fun sum price => sum + price) 0 prices) / (prices.length : ℚ)
    jsSqrt ((List.foldl (fun sum price => sum + (price - mean) ^ 2) 0 prices) /
      (prices.length : ℚ))

/-- The source's `calculateVolumeRatio(data, period)`: the last bar's volume
divided by the mean volume of the last `period` bars (`data.slice(-period)`,
which includes the current bar), 1 on short data or a non-positive mean. -/
def calculateVolumeRatio (data : List Bar) (period : Nat) : ℚ :=
  if data.length < period then 1
  else
    let currentVolume := (data.getD (data.length - 1) default).volume
    let avgVolume :=
      (List.foldl (fun sum item => sum + item.volume) 0
        (data.drop (data.length - period))) / (period : ℚ)
    if 0 < avgVolume then currentVolume / avgVolume else 1

/-- The source's `calculateMomentum(data, period)`: percentage change of the
latest close versus the close `period` bars earlier, 0 on short data. -/
def calculateMomentum (data : List Bar) (period : Nat) : ℚ :=
  if data.length < period + 1 then 0
  else
    let currentPrice := (data.getD (data.length - 1) default).close_price
    let pastPrice := (data.getD (data.length - 1 - period) default).close_price
    (currentPrice - pastPrice) / pastPrice * 100

/-- The body of the feature loop of `calculateTechnicalIndicators` for loop
index `i`: the 11-entry feature vector computed from the slice of the first
`i + 1` bars. -/
def featureAt (historicalData : List Bar) (i : Nat) : List ℚ :=
  let current := historicalData.getD i default
  let slice := historicalData.take (i + 1)
  let priceChangePct : ℚ :=
    if 1 < slice.length then
      (current.close_price - (slice.getD (slice.length - 2) default).close_price) /
        (slice.getD (slice.length - 2) default).close_price * 100
    else 0
  [calculateSMA slice 5, calculateSMA slice 10, calculateSMA slice 20,
   calculateEMA slice 12, calculateEMA slice 26,
   calculateRSI slice 14,
   calculateVolatility slice 10,
   calculateVolumeRatio slice 10,
   calculateMomentum slice 3, calculateMomentum slice 7,
   priceChangePct]

/-- The source's `calculateTechnicalIndicators(historicalData)`: one feature
vector per loop index `i = 26 .. length - 1`. -/
def calculateTechnicalIndicators (historicalData : List Bar) : List (List ℚ) :=
  (List.range' 26 (historicalData.length - 26)).map (featureAt historicalData)

/-- Modelled from the spec: the third-party `ml-random-forest` regressor is not
part of this repository, and §4.2 treats the fitted model as opaque ("fits a
regression model ... conceptually interchangeable"), so fitting is modelled as
totally recording the training arrays. -/
structure FittedModel where
  featuresX : List (List ℚ)
  targetsY : List ℚ
  deriving DecidableEq, Inhabited

/-- The mutable per-instance forecaster state: `this.model` / `this.isTrained`
(a fresh instance has `isTrained = false` and no model). -/
structure ForecasterState where
  isTrained : Bool := false
  model : Option FittedModel := none
  deriving DecidableEq, Inhabited

/-- Result value of `train`: the success object with its sample and feature
counts, or the caught error message. -/
inductive TrainResult
  | success (samplesUsed : Nat) (featuresCount : Nat)
  | failure (error : String)
  deriving DecidableEq

/-- The target-extraction loop of `train`: close prices at indices
`i = 27 .. length - 1` ("i + 1 for next day's price"). -/
def trainTargets (historicalData : List Bar) : List ℚ :=
  (List.range' 27 (historicalData.length - 27)).map
    (fun i => (historicalData.getD i default).close_price)

/-- The source's `train(historicalData)`: compute features and targets, fail
with the insufficient-data error when fewer than 30 feature vectors exist
(leaving the state untouched), otherwise fit and mark the model trained.
Returns the result object together with the updated instance state. -/
def train (st : ForecasterState) (historicalData : List Bar) :
    TrainResult × ForecasterState :=
  let features := calculateTechnicalIndicators historicalData
  let targets := trainTargets historicalData
  if features.length < 30 then
    (TrainResult.failure "Insufficient data for training. Need at least 30 data points.", st)
  else
    (TrainResult.success features.length (features.getD 0 []).length,
     { isTrained := true, model := some { featuresX := features, targetsY := targets } })

end StockRandomForest

/-! Helper lemmas about `List.set`, `List.getD`, `swapL` and slices, used by the
sorting-algorithm proofs. -/

theorem getD_eq_getElem_of_lt {α : Type*} (l : List α) (d : α) {i : Nat}
    (h : i < l.length) : l.getD i d = l[i] :=
  List.getD_eq_getElem l d h

theorem getD_set_eq {α : Type*} (l : List α) (i : Nat) (v d : α) (h : i < l.length) :
    (l.set i v).getD i d = v := by
  rw [getD_eq_getElem_of_lt _ _ (by simpa using h)]
  exact List.getElem_set_eq (by simpa using h)

theorem getD_set_ne {α : Type*} (l : List α) {i j : Nat} (v d : α) (h : i ≠ j) :
    (l.set i v).getD j d = l.getD j d := by
  by_cases hj : j < l.length
  · rw [getD_eq_getElem_of_lt _ _ (by simpa using hj), getD_eq_getElem_of_lt _ _ hj]
    exact List.getElem_set_of_ne h v _
  · rw [List.getD_eq_default _ _ (by simpa using Nat.le_of_not_lt hj),
      List.getD_eq_default _ _ (Nat.le_of_not_lt hj)]

theorem set_getD_self {α : Type*} [Inhabited α] (l : List α) (i : Nat) :
    l.set i (l.getD i default) = l := by
  by_cases h : i < l.length
  · rw [getD_eq_getElem_of_lt _ _ h]
    apply List.ext_getElem (by simp)
    intro k hk hk'
    by_cases hik : i = k
    · subst hik; exact List.getElem_set_eq (by simpa using hk)
    · exact List.getElem_set_of_ne hik _ _
  · exact List.set_eq_of_length_le (Nat.le_of_not_lt h)

@[simp]
theorem length_swapL {α : Type*} [Inhabited α] (l : List α) (i j : Nat) :
    (swapL l i j).length = l.length := by
  simp [swapL]

theorem getD_swapL_fst {α : Type*} [Inhabited α] (l : List α) {i j : Nat} (d : α)
    (hi : i < l.length) (hj : j < l.length) : (swapL l i j).getD i d = l.getD j d := by
  unfold swapL
  by_cases hij : i = j
  · subst hij
    rw [getD_set_eq _ _ _ _ (by simpa using hi)]
    by_cases hd : d = default
    · subst hd; rfl
    · rw [getD_eq_getElem_of_lt _ _ hi, getD_eq_getElem_of_lt _ _ hi]
  · rw [getD_set_ne _ _ _ (fun h => hij h.symm), getD_set_eq _ _ _ _ hi]
    rw [getD_eq_getElem_of_lt _ _ hj, getD_eq_getElem_of_lt _ _ hj]

theorem getD_swapL_snd {α : Type*} [Inhabited α] (l : List α) {i j : Nat} (d : α)
    (hi : i < l.length) (hj : j < l.length) : (swapL l i j).getD j d = l.getD i d := by
  unfold swapL
  rw [getD_set_eq _ _ _ _ (by simpa using hj)]
  rw [getD_eq_getElem_of_lt _ _ hi, getD_eq_getElem_of_lt _ _ hi]

theorem getD_swapL_other {α : Type*} [Inhabited α] (l : List α) {i j k : Nat} (d : α)
    (hki : k ≠ i) (hkj : k ≠ j) : (swapL l i j).getD k d = l.getD k d := by
  unfold swapL
  rw [getD_set_ne _ _ _ (fun h => hkj h.symm), getD_set_ne _ _ _ (fun h => hki h.symm)]

theorem swapL_self {α : Type*} [Inhabited α] (l : List α) (i : Nat) :
    swapL l i i = l := by
  unfold swapL
  rw [set_getD_self, set_getD_self]

theorem cons_getD_set_perm {α : Type*} [Inhabited α] (a : α) :
    ∀ (t : List α) (m : Nat), m < t.length →
      List.Perm (t.getD m default :: t.set m a) (a :: t)
  | [], m, h => by simp at h
  | b :: t', 0, _ => by
    simpa using List.Perm.swap a b t'
  | b :: t', m + 1, h => by
    have ih := cons_getD_set_perm a t' m (by simpa using h)
    have h1 : ((b :: t').getD (m + 1) default :: (b :: t').set (m + 1) a)
        = t'.getD m default :: b :: t'.set m a := by simp
    rw [h1]
    exact (List.Perm.swap b _ _).trans ((List.Perm.cons b ih).trans (List.Perm.swap a b t'))

theorem swapL_perm {α : Type*} [Inhabited α] :
    ∀ (l : List α) (i j : Nat), i < l.length → j < l.length →
      List.Perm (swapL l i j) l
  | [], i, j, hi, _ => by simp at hi
  | a :: t, 0, 0, _, _ => by rw [swapL_self]
  | a :: t, 0, m + 1, _, hj => by
    have : swapL (a :: t) 0 (m + 1) = t.getD m default :: t.set m a := by
      simp [swapL]
    rw [this]
    exact cons_getD_set_perm a t m (by simpa using hj)
  | a :: t, k + 1, 0, hi, _ => by
    have : swapL (a :: t) (k + 1) 0 = t.getD k default :: t.set k a := by
      simp [swapL]
    rw [this]
    exact cons_getD_set_perm a t k (by simpa using hi)
  | a :: t, k + 1, m + 1, hi, hj => by
    have : swapL (a :: t) (k + 1) (m + 1) = a :: swapL t k m := by
      simp [swapL]
    rw [this]
    exact List.Perm.cons a (swapL_perm t k m (by simpa using hi) (by simpa using hj))

/-- Half-open slice of a list: the elements at positions `a, a+1, ..., b-1`. -/
def sliceL {α : Type*} (l : List α) (a b : Nat) : List α :=
  (l.drop a).take (b - a)

theorem length_sliceL {α : Type*} (l : List α) (a b : Nat) :
    (sliceL l a b).length = min (b - a) (l.length - a) := by
  simp [sliceL]

theorem getElem_sliceL {α : Type*} (l : List α) (a b k : Nat)
    (hk : k < (sliceL l a b).length) (hak : a + k < l.length) :
    (sliceL l a b)[k] = l[a + k] := by
  simp only [sliceL, List.getElem_take, List.getElem_drop]

theorem getD_mem_sliceL {α : Type*} [Inhabited α] (l : List α) (a b k : Nat)
    (hak : a ≤ k) (hkb : k < b) (hkl : k < l.length) :
    l.getD k default ∈ sliceL l a b := by
  have hk : k - a < (sliceL l a b).length := by
    simp [length_sliceL]; omega
  have : (sliceL l a b)[k - a] = l[k] := by
    rw [getElem_sliceL l a b (k - a) hk (by omega)]
    congr 1
    omega
  rw [getD_eq_getElem_of_lt _ _ hkl, ← this]
  exact List.getElem_mem hk

theorem forall_mem_sliceL {α : Type*} [Inhabited α] {l : List α} {a b : Nat}
    {P : α → Prop} (h : ∀ k, a ≤ k → k < b → k < l.length → P (l.getD k default)) :
    ∀ x ∈ sliceL l a b, P x := by
  intro x hx
  obtain ⟨k, hk, rfl⟩ := List.getElem_of_mem hx
  have hkb : a + k < b := by
    have := hk; simp [length_sliceL] at this; omega
  have hkl : a + k < l.length := by
    have := hk; simp [length_sliceL] at this; omega
  rw [getElem_sliceL l a b k hk hkl]
  rw [← getD_eq_getElem_of_lt _ default hkl]
  exact h (a + k) (Nat.le_add_right a k) hkb hkl

theorem sliceL_congr {α : Type*} [Inhabited α] {l l' : List α} {a b : Nat}
    (hlen : l.length = l'.length)
    (h : ∀ k, a ≤ k → k < b → l.getD k default = l'.getD k default) :
    sliceL l a b = sliceL l' a b := by
  apply List.ext_getElem (by simp [length_sliceL, hlen])
  intro k hk hk'
  have h1 : a + k < b := by simp [length_sliceL] at hk; omega
  have h2 : a + k < l.length := by simp [length_sliceL] at hk; omega
  have h3 : a + k < l'.length := by omega
  rw [getElem_sliceL l a b k hk h2, getElem_sliceL l' a b k hk' h3]
  rw [← getD_eq_getElem_of_lt _ default h2, ← getD_eq_getElem_of_lt _ default h3]
  exact h (a + k) (Nat.le_add_right a k) h1

theorem eq_take_append_slice_append_drop {α : Type*} (l : List α) (a b : Nat)
    (hab : a ≤ b) : l = l.take a ++ sliceL l a b ++ l.drop b := by
  have h1 : l.drop a = sliceL l a b ++ l.drop b := by
    unfold sliceL
    have h2 : a + (b - a) = b := by omega
    conv_lhs => rw [← List.take_append_drop (b - a) (l.drop a)]
    rw [List.drop_drop, h2]
  conv_lhs => rw [← List.take_append_drop a l, h1]
  rw [List.append_assoc]

theorem perm_sliceL_of_perm {α : Type*} [Inhabited α] {l l' : List α} {a b : Nat}
    (hperm : List.Perm l l') (hab : a ≤ b)
    (hlow : ∀ k, k < a → l.getD k default = l'.getD k default)
    (hhigh : ∀ k, b ≤ k → l.getD k default = l'.getD k default) :
    List.Perm (sliceL l a b) (sliceL l' a b) := by
  have hlen : l.length = l'.length := hperm.length_eq
  have htake : l.take a = l'.take a := by
    apply List.ext_getElem (by simp [hlen])
    intro k hk hk'
    rw [List.getElem_take, List.getElem_take]
    have h2 : k < l.length := by simp at hk; omega
    have h3 : k < l'.length := by omega
    rw [← getD_eq_getElem_of_lt _ default h2, ← getD_eq_getElem_of_lt _ default h3]
    exact hlow k (by simp at hk; omega)
  have hdrop : l.drop b = l'.drop b := by
    apply List.ext_getElem (by simp [hlen])
    intro k hk hk'
    rw [List.getElem_drop, List.getElem_drop]
    have h2 : b + k < l.length := by simp at hk; omega
    have h3 : b + k < l'.length := by omega
    rw [← getD_eq_getElem_of_lt _ default h2, ← getD_eq_getElem_of_lt _ default h3]
    exact hhigh (b + k) (Nat.le_add_right b k)
  have hl := eq_take_append_slice_append_drop l a b hab
  have hl' := eq_take_append_slice_append_drop l' a b hab
  rw [hl, hl', htake, hdrop] at hperm
  rw [List.append_assoc, List.append_assoc] at hperm
  have := (List.perm_append_left_iff (l'.take a)).mp hperm
  exact (List.perm_append_right_iff (l'.drop b)).mp this

/-! Laws obeyed by every comparator in the registry, and the proofs that each
registry entry obeys them. -/

/-- The ordering-theoretic properties every registry comparator enjoys: the
induced relation `cmp a b ≤ 0` is total and transitive, and comparing equal to
zero is symmetric. -/
structure LawfulCmp (cmp : Cmp) : Prop where
  total : ∀ a b, cmp a b ≤ 0 ∨ cmp b a ≤ 0
  le_trans : ∀ a b c, cmp a b ≤ 0 → cmp b c ≤ 0 → cmp a c ≤ 0
  zero_symm : ∀ a b, cmp a b = 0 → cmp b a = 0

theorem LawfulCmp.le_of_pos {cmp : Cmp} (hc : LawfulCmp cmp) {a b : StockRecord}
    (h : 0 < cmp a b) : cmp b a ≤ 0 := by
  rcases hc.total a b with h' | h'
  · exact absurd h (not_lt.mpr h')
  · exact h'

theorem lawful_key_asc (k : StockRecord → ℚ) : LawfulCmp (fun a b => k a - k b) where
  total a b := by
    rcases le_total (k a) (k b) with h | h
    · left; simpa using h
    · right; simpa using h
  le_trans a b c hab hbc := by
    simp only [sub_nonpos] at *
    exact le_trans hab hbc
  zero_symm a b h := by
    simp only [sub_eq_zero] at *
    exact h.symm

theorem lawful_key_desc (k : StockRecord → ℚ) : LawfulCmp (fun a b => k b - k a) where
  total a b := by
    rcases le_total (k a) (k b) with h | h
    · right; simpa using h
    · left; simpa using h
  le_trans a b c hab hbc := by
    simp only [sub_nonpos] at *
    exact le_trans hbc hab
  zero_symm a b h := by
    simp only [sub_eq_zero] at *
    exact h.symm

theorem localeCompareQ_nonpos_iff (s t : String) : localeCompareQ s t ≤ 0 ↔ s ≤ t := by
  unfold localeCompareQ
  split
  · next h => simp [le_of_lt h]
  · split
    · next h1 h2 => simp [not_le.mpr h2]
    · next h1 h2 => simp [le_of_not_lt h2]

theorem localeCompareQ_eq_zero_iff (s t : String) : localeCompareQ s t = 0 ↔ s = t := by
  unfold localeCompareQ
  split
  · next h => simp [ne_of_lt h]
  · split
    · next h1 h2 => simp [(ne_of_lt h2).symm]
    · next h1 h2 => simp [le_antisymm (le_of_not_lt h2) (le_of_not_lt h1)]

theorem lawful_str_asc (k : StockRecord → String) :
    LawfulCmp (fun a b => localeCompareQ (k a) (k b)) where
  total a b := by
    rcases le_total (k a) (k b) with h | h
    · left; exact (localeCompareQ_nonpos_iff _ _).mpr h
    · right; exact (localeCompareQ_nonpos_iff _ _).mpr h
  le_trans a b c hab hbc := by
    rw [localeCompareQ_nonpos_iff] at *
    exact le_trans hab hbc
  zero_symm a b h := by
    rw [localeCompareQ_eq_zero_iff] at *
    exact h.symm

theorem lawful_str_desc (k : StockRecord → String) :
    LawfulCmp (fun a b => localeCompareQ (k b) (k a)) where
  total a b := by
    rcases le_total (k a) (k b) with h | h
    · right; exact (localeCompareQ_nonpos_iff _ _).mpr h
    · left; exact (localeCompareQ_nonpos_iff _ _).mpr h
  le_trans a b c hab hbc := by
    rw [localeCompareQ_nonpos_iff] at *
    exact le_trans hbc hab
  zero_symm a b h := by
    rw [localeCompareQ_eq_zero_iff] at *
    exact h.symm

namespace StockSorter

theorem compareFunctions_lawful {sortBy : String} {cmp : Cmp}
    (h : compareFunctions sortBy = some cmp) : LawfulCmp cmp := by
  unfold compareFunctions at h
  by_cases h1 : sortBy = "price_asc"
  · rw [if_pos h1] at h; cases h; exact lawful_key_asc _
  rw [if_neg h1] at h
  by_cases h2 : sortBy = "price_desc"
  · rw [if_pos h2] at h; cases h; exact lawful_key_desc _
  rw [if_neg h2] at h
  by_cases h3 : sortBy = "volume_asc"
  · rw [if_pos h3] at h; cases h; exact lawful_key_asc _
  rw [if_neg h3] at h
  by_cases h4 : sortBy = "volume_desc"
  · rw [if_pos h4] at h; cases h; exact lawful_key_desc _
  rw [if_neg h4] at h
  by_cases h5 : sortBy = "market_cap_asc"
  · rw [if_pos h5] at h; cases h; exact lawful_key_asc _
  rw [if_neg h5] at h
  by_cases h6 : sortBy = "market_cap_desc"
  · rw [if_pos h6] at h; cases h; exact lawful_key_desc _
  rw [if_neg h6] at h
  by_cases h7 : sortBy = "symbol_asc"
  · rw [if_pos h7] at h; cases h; exact lawful_str_asc _
  rw [if_neg h7] at h
  by_cases h8 : sortBy = "symbol_desc"
  · rw [if_pos h8] at h; cases h; exact lawful_str_desc _
  rw [if_neg h8] at h
  by_cases h9 : sortBy = "name_asc"
  · rw [if_pos h9] at h; cases h; exact lawful_str_asc _
  rw [if_neg h9] at h
  by_cases h10 : sortBy = "name_desc"
  · rw [if_pos h10] at h; cases h; exact lawful_str_desc _
  rw [if_neg h10] at h
  by_cases h11 : sortBy = "sector_asc"
  · rw [if_pos h11] at h; cases h; exact lawful_str_asc _
  rw [if_neg h11] at h
  by_cases h12 : sortBy = "sector_desc"
  · rw [if_pos h12] at h; cases h; exact lawful_str_desc _
  rw [if_neg h12] at h
  by_cases h13 : sortBy = "date_asc"
  · rw [if_pos h13] at h; cases h; exact lawful_key_asc _
  rw [if_neg h13] at h
  by_cases h14 : sortBy = "date_desc"
  · rw [if_pos h14] at h; cases h; exact lawful_key_desc _
  rw [if_neg h14] at h
  by_cases h15 : sortBy = "change_asc"
  · rw [if_pos h15] at h; cases h; exact lawful_key_asc _
  rw [if_neg h15] at h
  by_cases h16 : sortBy = "change_desc"
  · rw [if_pos h16] at h; cases h; exact lawful_key_desc _
  rw [if_neg h16] at h
  exact Option.noConfusion h

/-- Sortedness as the claims state it: consecutive-free pairwise
non-decreasingness under the comparator. -/
def PairwiseLe (cmp : Cmp) (l : List StockRecord) : Prop :=
  List.Pairwise (fun a b => cmp a b ≤ 0) l

theorem pairwiseLe_of_short {cmp : Cmp} {l : List StockRecord} (h : l.length ≤ 1) :
    PairwiseLe cmp l := by
  cases l with
  | nil => exact List.Pairwise.nil
  | cons x t =>
    cases t with
    | nil => exact List.pairwise_singleton _ x
    | cons y t' => simp at h

/-! Merge sort: permutation, sortedness, stability, sorted-input identity. -/

theorem mergeJS_perm (cmp : Cmp) :
    ∀ (l r : List StockRecord), List.Perm (mergeJS cmp l r) (l ++ r)
  | [], r => by rw [mergeJS]; simp
  | x :: xs, [] => by rw [mergeJS]; simp
  | x :: xs, y :: ys => by
    rw [mergeJS]
    split
    · exact List.Perm.cons x (mergeJS_perm cmp xs (y :: ys))
    · have ih := mergeJS_perm cmp (x :: xs) ys
      exact (List.Perm.cons y ih).trans List.perm_middle.symm
termination_by l r => l.length + r.length

theorem mem_mergeJS {cmp : Cmp} {z : StockRecord} {l r : List StockRecord}
    (h : z ∈ mergeJS cmp l r) : z ∈ l ∨ z ∈ r := by
  have := (mergeJS_perm cmp l r).mem_iff.mp h
  simpa using this

theorem mergeJS_sorted {cmp : Cmp} (hc : LawfulCmp cmp) :
    ∀ (l r : List StockRecord), PairwiseLe cmp l → PairwiseLe cmp r →
      PairwiseLe cmp (mergeJS cmp l r)
  | [], r, _, hr => by rw [mergeJS]; exact hr
  | x :: xs, [], hl, _ => by rw [mergeJS]; exact hl
  | x :: xs, y :: ys, hl, hr => by
    rw [mergeJS]
    split
    · next hxy =>
      refine List.Pairwise.cons ?_ (mergeJS_sorted hc xs (y :: ys) hl.tail hr)
      intro z hz
      rcases mem_mergeJS hz with hz | hz
      · exact List.rel_of_pairwise_cons hl hz
      · rcases List.mem_cons.mp hz with rfl | hz
        · exact hxy
        · exact hc.le_trans x y z hxy (List.rel_of_pairwise_cons hr hz)
    · next hxy =>
      have hyx : cmp y x ≤ 0 := hc.le_of_pos (lt_of_not_le hxy)
      refine List.Pairwise.cons ?_ (mergeJS_sorted hc (x :: xs) ys hl hr.tail)
      intro z hz
      rcases mem_mergeJS hz with hz | hz
      · rcases List.mem_cons.mp hz with rfl | hz
        · exact hyx
        · exact hc.le_trans y x z hyx (List.rel_of_pairwise_cons hl hz)
      · exact List.rel_of_pairwise_cons hr hz
termination_by l r => l.length + r.length

theorem mergeSortRecursive_perm (cmp : Cmp) (l : List StockRecord) :
    List.Perm (mergeSortRecursive cmp l) l := by
  rw [mergeSortRecursive]
  split
  · exact List.Perm.refl l
  · have ih1 := mergeSortRecursive_perm cmp (l.take (l.length / 2))
    have ih2 := mergeSortRecursive_perm cmp (l.drop (l.length / 2))
    have hp := mergeJS_perm cmp (mergeSortRecursive cmp (l.take (l.length / 2)))
      (mergeSortRecursive cmp (l.drop (l.length / 2)))
    have := hp.trans (List.Perm.append ih1 ih2)
    simpa using this
termination_by l.length
decreasing_by
  · simp only [List.length_take]; omega
  · simp only [List.length_drop]; omega

theorem mergeSortRecursive_sorted {cmp : Cmp} (hc : LawfulCmp cmp)
    (l : List StockRecord) : PairwiseLe cmp (mergeSortRecursive cmp l) := by
  rw [mergeSortRecursive]
  split
  · next h => exact pairwiseLe_of_short (Nat.le_of_not_lt (by omega))
  · have ih1 := mergeSortRecursive_sorted hc (l.take (l.length / 2))
    have ih2 := mergeSortRecursive_sorted hc (l.drop (l.length / 2))
    exact mergeJS_sorted hc _ _ ih1 ih2
termination_by l.length
decreasing_by
  · simp only [List.length_take]; omega
  · simp only [List.length_drop]; omega

theorem cmp_refl_le {cmp : Cmp} (hc : LawfulCmp cmp) (a : StockRecord) : cmp a a ≤ 0 := by
  rcases hc.total a a with h | h <;> exact h

/-- Stability is stated through class filters: the predicate selecting the
records that compare equal to a fixed record `c`. -/
def classOf (cmp : Cmp) (c : StockRecord) : StockRecord → Bool :=
  fun x => decide (cmp x c = 0)

theorem mergeJS_filter {cmp : Cmp} (hc : LawfulCmp cmp) (c : StockRecord) :
    ∀ (l r : List StockRecord), PairwiseLe cmp l →
      (mergeJS cmp l r).filter (classOf cmp c) =
        l.filter (classOf cmp c) ++ r.filter (classOf cmp c)
  | [], r, _ => by rw [mergeJS]; simp
  | x :: xs, [], _ => by rw [mergeJS]; simp
  | x :: xs, y :: ys, hl => by
    rw [mergeJS]
    split
    · next hxy =>
      have ih := mergeJS_filter hc c xs (y :: ys) hl.tail
      by_cases hpx : classOf cmp c x = true
      · simp [List.filter_cons, hpx, ih]
      · simp only [Bool.not_eq_true] at hpx
        simp [List.filter_cons, hpx, ih]
    · next hxy =>
      have hpos : 0 < cmp x y := lt_of_not_le hxy
      have ih := mergeJS_filter hc c (x :: xs) ys hl
      by_cases hpy : classOf cmp c y = true
      · have hnil : (x :: xs).filter (classOf cmp c) = [] := by
          apply List.filter_eq_nil_iff.mpr
          intro z hz hpz
          have hpy' : cmp y c = 0 := by simpa [classOf] using hpy
          have hpz' : cmp z c = 0 := by simpa [classOf] using hpz
          have hzy : cmp z y ≤ 0 :=
            hc.le_trans z c y (le_of_eq hpz') (le_of_eq (hc.zero_symm y c hpy'))
          rcases List.mem_cons.mp hz with rfl | hz'
          · exact absurd hzy (not_le.mpr hpos)
          · have hxz : cmp x z ≤ 0 := List.rel_of_pairwise_cons hl hz'
            exact absurd (hc.le_trans x z y hxz hzy) (not_le.mpr hpos)
        simp [List.filter_cons, hpy, ih, hnil]
      · simp only [Bool.not_eq_true] at hpy
        simp [List.filter_cons, hpy, ih]
termination_by l r => l.length + r.length

theorem mergeSortRecursive_filter {cmp : Cmp} (hc : LawfulCmp cmp) (c : StockRecord)
    (l : List StockRecord) :
    (mergeSortRecursive cmp l).filter (classOf cmp c) = l.filter (classOf cmp c) := by
  rw [mergeSortRecursive]
  split
  · rfl
  · have ih1 := mergeSortRecursive_filter hc c (l.take (l.length / 2))
    have ih2 := mergeSortRecursive_filter hc c (l.drop (l.length / 2))
    rw [mergeJS_filter hc c _ _ (mergeSortRecursive_sorted hc _), ih1, ih2,
      ← List.filter_append, List.take_append_drop]
termination_by l.length
decreasing_by
  · simp only [List.length_take]; omega
  · simp only [List.length_drop]; omega

theorem mergeJS_of_le {cmp : Cmp} :
    ∀ (l r : List StockRecord), (∀ x ∈ l, ∀ y ∈ r, cmp x y ≤ 0) →
      mergeJS cmp l r = l ++ r
  | [], r, _ => by rw [mergeJS]; simp
  | x :: xs, [], _ => by rw [mergeJS]; simp
  | x :: xs, y :: ys, h => by
    rw [mergeJS, if_pos (h x (by simp) y (by simp))]
    rw [mergeJS_of_le xs (y :: ys) (fun a ha b hb => h a (by simp [ha]) b hb)]
    rfl
termination_by l r => l.length + r.length

theorem mergeSortRecursive_of_sorted {cmp : Cmp} (l : List StockRecord)
    (h : PairwiseLe cmp l) : mergeSortRecursive cmp l = l := by
  rw [mergeSortRecursive]
  split
  · rfl
  · have h' : PairwiseLe cmp (l.take (l.length / 2) ++ l.drop (l.length / 2)) := by
      rw [List.take_append_drop]; exact h
    obtain ⟨h1, h2, hcross⟩ := List.pairwise_append.mp h'
    rw [mergeSortRecursive_of_sorted _ h1, mergeSortRecursive_of_sorted _ h2,
      mergeJS_of_le _ _ hcross, List.take_append_drop]
termination_by l.length
decreasing_by
  · simp only [List.length_take]; omega
  · simp only [List.length_drop]; omega

theorem adj_getD_le {cmp : Cmp} (hc : LawfulCmp cmp) (l : List StockRecord)
    (hadj : ∀ i, i + 1 < l.length →
      cmp (l.getD i default) (l.getD (i + 1) default) ≤ 0) :
    ∀ (d i j : Nat), i + d = j → j < l.length →
      cmp (l.getD i default) (l.getD j default) ≤ 0 := by
  intro d
  induction d with
  | zero =>
    intro i j hij _
    have : i = j := by omega
    subst this
    exact cmp_refl_le hc _
  | succ d ih =>
    intro i j hij hj
    have h1 : cmp (l.getD i default) (l.getD (i + d) default) ≤ 0 :=
      ih i (i + d) rfl (by omega)
    have h2 : cmp (l.getD (i + d) default) (l.getD (i + d + 1) default) ≤ 0 :=
      hadj (i + d) (by omega)
    have : i + d + 1 = j := by omega
    rw [this] at h2
    exact hc.le_trans _ _ _ h1 h2

theorem pairwise_of_adjacent {cmp : Cmp} (hc : LawfulCmp cmp) (l : List StockRecord)
    (hadj : ∀ i, i + 1 < l.length →
      cmp (l.getD i default) (l.getD (i + 1) default) ≤ 0) :
    PairwiseLe cmp l := by
  rw [PairwiseLe, List.pairwise_iff_getElem]
  intro i j hi hj hij
  have := adj_getD_le hc l hadj (j - i) i j (by omega) hj
  rwa [getD_eq_getElem_of_lt _ _ hi, getD_eq_getElem_of_lt _ _ hj] at this

/-! Bubble sort: pass-level lemmas, then the loop invariant. -/

theorem getD_eq_of_drop_eq {α : Type*} [Inhabited α] {X Y : List α} {m : Nat}
    (hlen : X.length = Y.length) (h : X.drop m = Y.drop m) :
    ∀ q, m ≤ q → X.getD q default = Y.getD q default := by
  intro q hq
  by_cases hql : q < X.length
  · have hql' : q < Y.length := by omega
    rw [getD_eq_getElem_of_lt _ _ hql, getD_eq_getElem_of_lt _ _ hql']
    have hd1 : q - m < (X.drop m).length := by simp; omega
    have hd2 : q - m < (Y.drop m).length := by simp; omega
    have h1 : (X.drop m)[q - m] = X[q] := by
      rw [List.getElem_drop]
      congr 1
      omega
    have h2 : (Y.drop m)[q - m] = Y[q] := by
      rw [List.getElem_drop]
      congr 1
      omega
    rw [← h1, ← h2]
    congr 1
  · rw [List.getD_eq_default _ _ (by omega), List.getD_eq_default _ _ (by omega)]

theorem sliceL_take {α : Type*} (l : List α) (b : Nat) : sliceL l 0 b = l.take b := by
  simp [sliceL]

theorem mem_take_mono {α : Type*} {z : α} {l : List α} {m m' : Nat} (h : m ≤ m')
    (hz : z ∈ l.take m) : z ∈ l.take m' := by
  have : l.take m = (l.take m').take m := by
    rw [List.take_take, Nat.min_eq_left h]
  rw [this] at hz
  exact (List.take_sublist m (l.take m')).mem hz

theorem bubblePass_perm (cmp : Cmp) :
    ∀ (l : List StockRecord) (c : Nat), List.Perm (bubblePass cmp l c).1 l
  | l, 0 => by rw [bubblePass]
  | [], _ + 1 => by rw [bubblePass]
  | [x], _ + 1 => by rw [bubblePass]
  | x :: y :: t, k + 1 => by
    rw [bubblePass]
    split
    · exact (List.Perm.cons y (bubblePass_perm cmp (x :: t) k)).trans (List.Perm.swap x y t)
    · exact List.Perm.cons x (bubblePass_perm cmp (y :: t) k)
termination_by l _ => l.length

theorem bubblePass_length (cmp : Cmp) (l : List StockRecord) (c : Nat) :
    (bubblePass cmp l c).1.length = l.length :=
  (bubblePass_perm cmp l c).length_eq

theorem bubblePass_drop (cmp : Cmp) :
    ∀ (l : List StockRecord) (c : Nat), (bubblePass cmp l c).1.drop (c + 1) = l.drop (c + 1)
  | l, 0 => by rw [bubblePass]
  | [], _ + 1 => by rw [bubblePass]
  | [x], _ + 1 => by rw [bubblePass]
  | x :: y :: t, k + 1 => by
    rw [bubblePass]
    split
    · have ih := bubblePass_drop cmp (x :: t) k
      simpa using ih
    · have ih := bubblePass_drop cmp (y :: t) k
      simpa using ih
termination_by l _ => l.length

theorem bubblePass_head_le {cmp : Cmp} (hc : LawfulCmp cmp) :
    ∀ (c : Nat) (x : StockRecord) (t : List StockRecord), c < (x :: t).length →
      cmp x ((bubblePass cmp (x :: t) c).1.getD c default) ≤ 0 ∨
        x = (bubblePass cmp (x :: t) c).1.getD c default
  | 0, x, t, _ => by rw [bubblePass]; right; simp
  | k + 1, x, [], h => by simp at h
  | k + 1, x, y :: t', h => by
    rw [bubblePass]
    split
    · next hxy =>
      have ih := bubblePass_head_le hc k x t' (by simp at h ⊢; omega)
      simpa using ih
    · next hxy =>
      have hxy' : cmp x y ≤ 0 := not_lt.mp hxy
      have ih := bubblePass_head_le hc k y t' (by simp at h ⊢; omega)
      left
      have hgd : ((let r := bubblePass cmp (y :: t') k; (x :: r.1, r.2)).1.getD (k + 1) default)
          = (bubblePass cmp (y :: t') k).1.getD k default := by simp
      rw [hgd]
      rcases ih with ih | ih
      · exact hc.le_trans x y _ hxy' ih
      · rw [← ih]; exact hxy'
termination_by c x t => (x :: t).length

theorem bubblePass_take_le {cmp : Cmp} (hc : LawfulCmp cmp) :
    ∀ (c : Nat) (l : List StockRecord), c < l.length →
      ∀ z ∈ (bubblePass cmp l c).1.take c,
        cmp z ((bubblePass cmp l c).1.getD c default) ≤ 0
  | 0, l, _ => by intro z hz; rw [bubblePass] at hz; simp at hz
  | k + 1, [], h => by simp at h
  | k + 1, [x], h => by simp at h
  | k + 1, x :: y :: t, h => by
    intro z hz
    rw [bubblePass] at hz ⊢
    by_cases hxy : 0 < cmp x y
    · rw [if_pos hxy] at hz ⊢
      dsimp only at hz ⊢
      rw [List.take_succ_cons] at hz
      rw [List.getD_cons_succ]
      rcases List.mem_cons.mp hz with rfl | hz'
      · have hyx : cmp z x ≤ 0 := hc.le_of_pos hxy
        rcases bubblePass_head_le hc k x t (by simp at h ⊢; omega) with hh | hh
        · exact hc.le_trans z x _ hyx hh
        · rw [← hh]; exact hyx
      · exact bubblePass_take_le hc k (x :: t) (by simp at h ⊢; omega) z hz'
    · rw [if_neg hxy] at hz ⊢
      dsimp only at hz ⊢
      rw [List.take_succ_cons] at hz
      rw [List.getD_cons_succ]
      rcases List.mem_cons.mp hz with rfl | hz'
      · have hzy : cmp z y ≤ 0 := not_lt.mp hxy
        rcases bubblePass_head_le hc k y t (by simp at h ⊢; omega) with hh | hh
        · exact hc.le_trans z y _ hzy hh
        · rw [← hh]; exact hzy
      · exact bubblePass_take_le hc k (y :: t) (by simp at h ⊢; omega) z hz'
termination_by c l => l.length

theorem bubblePass_eq_of_not_swapped (cmp : Cmp) :
    ∀ (l : List StockRecord) (c : Nat), (bubblePass cmp l c).2 = false →
      (bubblePass cmp l c).1 = l
  | l, 0 => by rw [bubblePass]; intro _; rfl
  | [], _ + 1 => by rw [bubblePass]; intro _; rfl
  | [x], _ + 1 => by rw [bubblePass]; intro _; rfl
  | x :: y :: t, k + 1 => by
    rw [bubblePass]
    split
    · intro hs
      simp at hs
    · intro hs
      dsimp only at hs ⊢
      rw [bubblePass_eq_of_not_swapped cmp (y :: t) k hs]
termination_by l _ => l.length

theorem bubblePass_adj_of_not_swapped (cmp : Cmp) :
    ∀ (l : List StockRecord) (c : Nat), (bubblePass cmp l c).2 = false →
      ∀ i, i < c → i + 1 < l.length →
        cmp (l.getD i default) (l.getD (i + 1) default) ≤ 0
  | l, 0 => by intro _ i hi; omega
  | [], _ + 1 => by intro _ i _ hi; simp at hi
  | [x], _ + 1 => by intro _ i _ hi; simp at hi
  | x :: y :: t, k + 1 => by
    rw [bubblePass]
    split
    · intro hs
      simp at hs
    · next hxy =>
      intro hs i hi hil
      dsimp only at hs
      match i with
      | 0 => simpa using not_lt.mp hxy
      | j + 1 =>
        have ih := bubblePass_adj_of_not_swapped cmp (y :: t) k hs j (by omega)
          (by simp at hil ⊢; omega)
        simpa using ih
termination_by l _ => l.length

theorem bubblePass_filter {cmp : Cmp} (hc : LawfulCmp cmp) (c0 : StockRecord) :
    ∀ (l : List StockRecord) (c : Nat),
      (bubblePass cmp l c).1.filter (classOf cmp c0) = l.filter (classOf cmp c0)
  | l, 0 => by rw [bubblePass]
  | [], _ + 1 => by rw [bubblePass]
  | [x], _ + 1 => by rw [bubblePass]
  | x :: y :: t, k + 1 => by
    rw [bubblePass]
    split
    · next hxy =>
      have ih := bubblePass_filter hc c0 (x :: t) k
      dsimp only
      by_cases hpx : classOf cmp c0 x = true
      · by_cases hpy : classOf cmp c0 y = true
        · have hx0 : cmp x c0 = 0 := by simpa [classOf] using hpx
          have hy0 : cmp y c0 = 0 := by simpa [classOf] using hpy
          have : cmp x y ≤ 0 :=
            hc.le_trans x c0 y (le_of_eq hx0) (le_of_eq (hc.zero_symm y c0 hy0))
          exact absurd this (not_le.mpr hxy)
        · simp only [Bool.not_eq_true] at hpy
          rw [List.filter_cons, ih, List.filter_cons, List.filter_cons]
          simp [hpx, hpy]
      · simp only [Bool.not_eq_true] at hpx
        rw [List.filter_cons, ih, List.filter_cons, List.filter_cons]
        by_cases hpy : classOf cmp c0 y = true
        · simp [hpx, hpy]
        · simp only [Bool.not_eq_true] at hpy
          simp [hpx, hpy]
    · next hxy =>
      have ih := bubblePass_filter hc c0 (y :: t) k
      dsimp only
      rw [List.filter_cons, ih]
      simp [List.filter_cons]
termination_by l _ => l.length

theorem bubblePass_of_sorted (cmp : Cmp) :
    ∀ (l : List StockRecord) (c : Nat),
      (∀ i, i < c → i + 1 < l.length →
        cmp (l.getD i default) (l.getD (i + 1) default) ≤ 0) →
      bubblePass cmp l c = (l, false)
  | l, 0, _ => by rw [bubblePass]
  | [], _ + 1, _ => by rw [bubblePass]
  | [x], _ + 1, _ => by rw [bubblePass]
  | x :: y :: t, k + 1, hadj => by
    rw [bubblePass]
    have h0 : cmp x y ≤ 0 := by
      have := hadj 0 (by omega) (by simp)
      simpa using this
    rw [if_neg (not_lt.mpr h0)]
    have ih := bubblePass_of_sorted cmp (y :: t) k (fun i hi hil => by
      have := hadj (i + 1) (by omega) (by simp at hil ⊢; omega)
      simpa using this)
    rw [ih]
termination_by l _ _ => l.length

theorem getD_mem_drop {α : Type*} [Inhabited α] (l : List α) (m q : Nat)
    (hmq : m ≤ q) (hq : q < l.length) : l.getD q default ∈ l.drop m := by
  have hlt : q - m < (l.drop m).length := by simp; omega
  have : (l.drop m)[q - m] = l[q] := by
    rw [List.getElem_drop]
    congr 1
    omega
  rw [getD_eq_getElem_of_lt _ _ hq, ← this]
  exact List.getElem_mem hlt

theorem pairwise_drop_getD {cmp : Cmp} {l : List StockRecord} {m : Nat}
    (h : PairwiseLe cmp (l.drop m)) :
    ∀ p q, m ≤ p → p < q → q < l.length →
      cmp (l.getD p default) (l.getD q default) ≤ 0 := by
  intro p q hmp hpq hq
  have hp' : p - m < (l.drop m).length := by simp; omega
  have hq' : q - m < (l.drop m).length := by simp; omega
  have hrel := List.pairwise_iff_getElem.mp h (p - m) (q - m) hp' hq' (by omega)
  have hpl : p < l.length := by omega
  have h1 : (l.drop m)[p - m] = l[p] := by
    rw [List.getElem_drop]; congr 1; omega
  have h2 : (l.drop m)[q - m] = l[q] := by
    rw [List.getElem_drop]; congr 1; omega
  rw [h1, h2] at hrel
  rwa [getD_eq_getElem_of_lt _ _ (by omega : p < l.length),
    getD_eq_getElem_of_lt _ _ hq]

theorem bubbleLoop_perm (cmp : Cmp) :
    ∀ (k : Nat) (l : List StockRecord), List.Perm (bubbleLoop cmp l k) l
  | 0, l => by rw [bubbleLoop]
  | k + 1, l => by
    rw [bubbleLoop]
    split
    · exact (bubbleLoop_perm cmp k _).trans (bubblePass_perm cmp l (k + 1))
    · exact bubblePass_perm cmp l (k + 1)

theorem bubbleLoop_filter {cmp : Cmp} (hc : LawfulCmp cmp) (c0 : StockRecord) :
    ∀ (k : Nat) (l : List StockRecord),
      (bubbleLoop cmp l k).filter (classOf cmp c0) = l.filter (classOf cmp c0)
  | 0, l => by rw [bubbleLoop]
  | k + 1, l => by
    rw [bubbleLoop]
    split
    · rw [bubbleLoop_filter hc c0 k _, bubblePass_filter hc c0 l (k + 1)]
    · rw [bubblePass_filter hc c0 l (k + 1)]

theorem bubbleLoop_of_sorted {cmp : Cmp} (hc : LawfulCmp cmp) :
    ∀ (k : Nat) (l : List StockRecord), PairwiseLe cmp l → bubbleLoop cmp l k = l
  | 0, l, _ => by rw [bubbleLoop]
  | k + 1, l, h => by
    rw [bubbleLoop]
    have hadj : ∀ i, i < k + 1 → i + 1 < l.length →
        cmp (l.getD i default) (l.getD (i + 1) default) ≤ 0 := by
      intro i _ hil
      have := List.pairwise_iff_getElem.mp h i (i + 1) (by omega) hil (by omega)
      rwa [getD_eq_getElem_of_lt _ _ (by omega), getD_eq_getElem_of_lt _ _ hil]
    rw [bubblePass_of_sorted cmp l (k + 1) hadj]
    simp

theorem bubbleLoop_spec {cmp : Cmp} (hc : LawfulCmp cmp) :
    ∀ (k : Nat) (l : List StockRecord),
      PairwiseLe cmp (l.drop (k + 1)) →
      (∀ x ∈ l.take (k + 1), ∀ y ∈ l.drop (k + 1), cmp x y ≤ 0) →
      List.Perm (bubbleLoop cmp l k) l ∧ PairwiseLe cmp (bubbleLoop cmp l k)
  | 0, l, hsorted, hcross => by
    rw [bubbleLoop]
    refine ⟨List.Perm.refl l, ?_⟩
    have h' : PairwiseLe cmp (l.take 1 ++ l.drop 1) :=
      List.pairwise_append.mpr ⟨pairwiseLe_of_short (by simp), hsorted, hcross⟩
    rwa [List.take_append_drop] at h'
  | k + 1, l, hsorted, hcross => by
    rw [bubbleLoop]
    by_cases hsw : (bubblePass cmp l (k + 1)).2 = true
    · rw [if_pos hsw]
      have hperm : List.Perm (bubblePass cmp l (k + 1)).1 l := bubblePass_perm cmp l (k + 1)
      have hlen : (bubblePass cmp l (k + 1)).1.length = l.length := hperm.length_eq
      have hdrop : (bubblePass cmp l (k + 1)).1.drop (k + 2) = l.drop (k + 2) :=
        bubblePass_drop cmp l (k + 1)
      have htake : List.Perm ((bubblePass cmp l (k + 1)).1.take (k + 2)) (l.take (k + 2)) := by
        rw [← sliceL_take, ← sliceL_take]
        exact perm_sliceL_of_perm hperm (by omega)
          (fun q hq => absurd hq (Nat.not_lt_zero q))
          (getD_eq_of_drop_eq hlen hdrop)
      by_cases hkl : k + 1 < l.length
      · have hkr : k + 1 < (bubblePass cmp l (k + 1)).1.length := by omega
        have hdropCons : (bubblePass cmp l (k + 1)).1.drop (k + 1) =
            (bubblePass cmp l (k + 1)).1.getD (k + 1) default ::
              (bubblePass cmp l (k + 1)).1.drop (k + 2) := by
          rw [List.drop_eq_getElem_cons hkr, getD_eq_getElem_of_lt _ _ hkr]
        have hvalMem : (bubblePass cmp l (k + 1)).1.getD (k + 1) default ∈ l.take (k + 2) := by
          apply htake.mem_iff.mp
          rw [← sliceL_take]
          exact getD_mem_sliceL _ 0 (k + 2) (k + 1) (by omega) (by omega) hkr
        have hsorted' : PairwiseLe cmp ((bubblePass cmp l (k + 1)).1.drop (k + 1)) := by
          rw [hdropCons]
          refine List.Pairwise.cons ?_ ?_
          · intro y hy
            rw [hdrop] at hy
            exact hcross _ hvalMem y hy
          · rw [hdrop]; exact hsorted
        have hcross' : ∀ x ∈ (bubblePass cmp l (k + 1)).1.take (k + 1),
            ∀ y ∈ (bubblePass cmp l (k + 1)).1.drop (k + 1), cmp x y ≤ 0 := by
          intro x hx y hy
          rw [hdropCons] at hy
          rcases List.mem_cons.mp hy with rfl | hy'
          · exact bubblePass_take_le hc (k + 1) l hkl x hx
          · rw [hdrop] at hy'
            have hx2 : x ∈ l.take (k + 2) := htake.mem_iff.mp (mem_take_mono (by omega) hx)
            exact hcross x hx2 y hy'
        obtain ⟨ihp, ihs⟩ := bubbleLoop_spec hc k (bubblePass cmp l (k + 1)).1 hsorted' hcross'
        exact ⟨ihp.trans hperm, ihs⟩
      · have hdropnil : (bubblePass cmp l (k + 1)).1.drop (k + 1) = [] :=
          List.drop_eq_nil_of_le (by omega)
        obtain ⟨ihp, ihs⟩ := bubbleLoop_spec hc k (bubblePass cmp l (k + 1)).1
          (by rw [hdropnil]; exact List.Pairwise.nil)
          (by intro x hx y hy; rw [hdropnil] at hy; simp at hy)
        exact ⟨ihp.trans hperm, ihs⟩
    · rw [if_neg hsw]
      have hs : (bubblePass cmp l (k + 1)).2 = false := by
        simpa using hsw
      rw [bubblePass_eq_of_not_swapped cmp l (k + 1) hs]
      refine ⟨List.Perm.refl l, ?_⟩
      apply pairwise_of_adjacent hc
      intro i hil
      by_cases hik : i < k + 1
      · exact bubblePass_adj_of_not_swapped cmp l (k + 1) hs i hik hil
      · by_cases hik2 : i = k + 1
        · subst hik2
          have h1 : l.getD (k + 1) default ∈ l.take (k + 2) := by
            rw [← sliceL_take]
            exact getD_mem_sliceL _ 0 (k + 2) (k + 1) (by omega) (by omega) (by omega)
          have h2 : l.getD (k + 2) default ∈ l.drop (k + 2) :=
            getD_mem_drop l (k + 2) (k + 2) (by omega) (by omega)
          exact hcross _ h1 _ h2
        · exact pairwise_drop_getD hsorted i (i + 1) (by omega) (by omega) hil

/-! Quick sort: partition-loop invariants, the partition specification, and the
recursive-sort specification. -/

theorem partitionLoop_length (cmp : Cmp) (pivot : StockRecord) :
    ∀ (c : Nat) (l : List StockRecord) (s j : Nat),
      (partitionLoop cmp pivot l s j c).1.length = l.length := by
  intro c
  induction c with
  | zero => intro l s j; rw [partitionLoop]
  | succ c ih =>
    intro l s j
    rw [partitionLoop]
    split
    · rw [ih]; simp
    · rw [ih]

theorem partitionLoop_untouched (cmp : Cmp) (pivot : StockRecord) :
    ∀ (c : Nat) (l : List StockRecord) (s j : Nat), s ≤ j →
      ∀ p, p < s ∨ j + c ≤ p →
        (partitionLoop cmp pivot l s j c).1.getD p default = l.getD p default := by
  intro c
  induction c with
  | zero => intro l s j _ p _; rw [partitionLoop]
  | succ c ih =>
    intro l s j hsj p hp
    rw [partitionLoop]
    split
    · have hp' : p < s + 1 ∨ (j + 1) + c ≤ p := by omega
      rw [ih (swapL l s j) (s + 1) (j + 1) (by omega) p hp']
      exact getD_swapL_other l default (by omega) (by omega)
    · exact ih l s (j + 1) (by omega) p (by omega)

theorem partitionLoop_perm (cmp : Cmp) (pivot : StockRecord) :
    ∀ (c : Nat) (l : List StockRecord) (s j : Nat), s ≤ j → j + c ≤ l.length →
      List.Perm (partitionLoop cmp pivot l s j c).1 l := by
  intro c
  induction c with
  | zero => intro l s j _ _; rw [partitionLoop]
  | succ c ih =>
    intro l s j hsj hjc
    rw [partitionLoop]
    split
    · have h1 := ih (swapL l s j) (s + 1) (j + 1) (by omega) (by simp; omega)
      exact h1.trans (swapL_perm l s j (by omega) (by omega))
    · exact ih l s (j + 1) (by omega) (by omega)

theorem partitionLoop_regions (cmp : Cmp) (pivot : StockRecord) :
    ∀ (c : Nat) (l : List StockRecord) (s j a : Nat), a ≤ s → s ≤ j → j + c ≤ l.length →
      (∀ p, a ≤ p → p < s → cmp (l.getD p default) pivot ≤ 0) →
      (∀ p, s ≤ p → p < j → 0 < cmp (l.getD p default) pivot) →
      (∀ p, a ≤ p → p < (partitionLoop cmp pivot l s j c).2 →
          cmp ((partitionLoop cmp pivot l s j c).1.getD p default) pivot ≤ 0) ∧
        (∀ p, (partitionLoop cmp pivot l s j c).2 ≤ p → p < j + c →
          0 < cmp ((partitionLoop cmp pivot l s j c).1.getD p default) pivot) := by
  intro c
  induction c with
  | zero =>
    intro l s j a _ _ _ h1 h2
    rw [partitionLoop]
    exact ⟨fun p hap hps => h1 p hap hps, fun p hsp hpj => h2 p hsp (by omega)⟩
  | succ c ih =>
    intro l s j a has hsj hjc h1 h2
    rw [partitionLoop]
    split
    · next hcmp =>
      have hlen : j < l.length := by omega
      have hslen : s < l.length := by omega
      have h1' : ∀ p, a ≤ p → p < s + 1 →
          cmp ((swapL l s j).getD p default) pivot ≤ 0 := by
        intro p hap hps
        by_cases hps' : p < s
        · rw [getD_swapL_other l default (by omega) (by omega)]
          exact h1 p hap hps'
        · have hp : p = s := by omega
          subst hp
          rw [getD_swapL_fst l default hslen hlen]
          exact hcmp
      have h2' : ∀ p, s + 1 ≤ p → p < j + 1 →
          0 < cmp ((swapL l s j).getD p default) pivot := by
        intro p hsp hpj
        by_cases hpj' : p < j
        · rw [getD_swapL_other l default (by omega) (by omega)]
          exact h2 p (by omega) hpj'
        · have hp : p = j := by omega
          subst hp
          have hsj' : s < p := by omega
          rw [getD_swapL_snd l default hslen hlen]
          exact h2 s (le_refl s) hsj'
      have := ih (swapL l s j) (s + 1) (j + 1) a (by omega) (by omega) (by simp; omega) h1' h2'
      exact ⟨fun p hap hp2 => this.1 p hap hp2, fun p hp2 hpj => this.2 p hp2 (by omega)⟩
    · next hcmp =>
      have h2' : ∀ p, s ≤ p → p < j + 1 → 0 < cmp (l.getD p default) pivot := by
        intro p hsp hpj
        by_cases hpj' : p < j
        · exact h2 p hsp hpj'
        · have hp : p = j := by omega
          subst hp
          exact lt_of_not_le hcmp
      have := ih l s (j + 1) a has (by omega) (by omega) h1 h2'
      exact ⟨fun p hap hp2 => this.1 p hap hp2, fun p hp2 hpj => this.2 p hp2 (by omega)⟩

theorem quickSortRecursive_of_not_lt (cmp : Cmp) (l : List StockRecord) (low high : Nat)
    (h : ¬low < high) : quickSortRecursive cmp l low high = l := by
  rw [quickSortRecursive, dif_neg h]

theorem partitionJS_spec (cmp : Cmp) (l : List StockRecord) (low high : Nat)
    (hlh : low < high) (hhl : high < l.length) :
    (partitionJS cmp l low high).1.length = l.length ∧
      (∀ p, p < low ∨ high < p →
        (partitionJS cmp l low high).1.getD p default = l.getD p default) ∧
      List.Perm (partitionJS cmp l low high).1 l ∧
      (partitionJS cmp l low high).1.getD (partitionJS cmp l low high).2 default =
        l.getD high default ∧
      (∀ p, low ≤ p → p < (partitionJS cmp l low high).2 →
        cmp ((partitionJS cmp l low high).1.getD p default) (l.getD high default) ≤ 0) ∧
      (∀ p, (partitionJS cmp l low high).2 < p → p ≤ high →
        0 < cmp ((partitionJS cmp l low high).1.getD p default) (l.getD high default)) := by
  have hb := partitionLoop_snd_bounds cmp (l.getD high default) (high - low) l low low
  have hlenP := partitionLoop_length cmp (l.getD high default) (high - low) l low low
  have hunt := partitionLoop_untouched cmp (l.getD high default) (high - low) l low low
    (le_refl low)
  have hperm := partitionLoop_perm cmp (l.getD high default) (high - low) l low low
    (le_refl low) (by omega)
  have hreg := partitionLoop_regions cmp (l.getD high default) (high - low) l low low low
    (le_refl low) (le_refl low) (by omega) (fun p hap hps => absurd hps (by omega))
    (fun p hsp hpj => absurd hpj (by omega))
  set P := partitionLoop cmp (l.getD high default) l low low (high - low) with hP
  have hPhigh : P.1.getD high default = l.getD high default :=
    hunt high (Or.inr (by omega))
  have hP2len : P.2 < l.length := by omega
  have hP2len' : P.2 < P.1.length := by omega
  have hhlen' : high < P.1.length := by omega
  have hJS : partitionJS cmp l low high = (swapL P.1 P.2 high, P.2) := by
    rw [partitionJS]
  rw [hJS]
  refine ⟨by simp [hlenP], ?_, ?_, ?_, ?_, ?_⟩
  · intro p hp
    rw [getD_swapL_other P.1 default (by omega) (by omega)]
    exact hunt p (by omega)
  · exact (swapL_perm P.1 P.2 high hP2len' hhlen').trans hperm
  · by_cases hP2h : P.2 = high
    · rw [hP2h, swapL_self]
      exact hPhigh
    · rw [getD_swapL_fst P.1 default hP2len' hhlen']
      exact hPhigh
  · intro p hlp hpP
    rw [getD_swapL_other P.1 default (by omega) (by omega)]
    exact hreg.1 p hlp hpP
  · intro p hPp hph
    by_cases hph' : p = high
    · subst hph'
      rw [getD_swapL_snd P.1 default hP2len' hhlen']
      exact hreg.2 P.2 (le_refl P.2) (by omega)
    · rw [getD_swapL_other P.1 default (by omega) (by omega)]
      exact hreg.2 p (by omega) (by omega)

theorem quickSortRecursive_step (cmp : Cmp) (l : List StockRecord) (low high : Nat)
    (h : low < high) :
    quickSortRecursive cmp l low high =
      quickSortRecursive cmp
        (quickSortRecursive cmp (partitionJS cmp l low high).1 low
          ((partitionJS cmp l low high).2 - 1))
        ((partitionJS cmp l low high).2 + 1) high := by
  rw [quickSortRecursive, dif_pos h]

theorem quickSortRecursive_spec {cmp : Cmp} (hc : LawfulCmp cmp)
    (low high : Nat) (l : List StockRecord) (hh : high < l.length) :
    (quickSortRecursive cmp l low high).length = l.length ∧
      (∀ p, p < low ∨ high < p →
        (quickSortRecursive cmp l low high).getD p default = l.getD p default) ∧
      List.Perm (quickSortRecursive cmp l low high) l ∧
      (∀ a b, low ≤ a → a < b → b ≤ high →
        cmp ((quickSortRecursive cmp l low high).getD a default)
          ((quickSortRecursive cmp l low high).getD b default) ≤ 0) := by
  by_cases hlh : low < high
  case neg =>
    rw [quickSortRecursive_of_not_lt cmp l low high hlh]
    exact ⟨rfl, fun p _ => rfl, List.Perm.refl l,
      fun a b h1 h2 h3 => by omega⟩
  case pos =>
    have hbnd := partitionJS_snd_bounds cmp l low high (Nat.le_of_lt hlh)
    obtain ⟨plen, punt, pperm, pval, ple, pgt⟩ := partitionJS_spec cmp l low high hlh hh
    rw [quickSortRecursive_step cmp l low high hlh]
    set P := partitionJS cmp l low high with hPdef
    obtain ⟨len1, unt1, perm1, sort1⟩ :=
      quickSortRecursive_spec hc low (P.2 - 1) P.1 (by omega)
    set R1 := quickSortRecursive cmp P.1 low (P.2 - 1) with hR1def
    obtain ⟨len2, unt2, perm2, sort2⟩ :=
      quickSortRecursive_spec hc (P.2 + 1) high R1 (by omega)
    set R2 := quickSortRecursive cmp R1 (P.2 + 1) high with hR2def
    have hR1id : P.2 = 0 → R1 = P.1 := by
      intro hp0
      rw [hR1def, hp0]
      exact quickSortRecursive_of_not_lt cmp P.1 low 0 (by omega)
    have hR1p : R1.getD P.2 default = P.1.getD P.2 default := by
      by_cases hp0 : P.2 = 0
      · rw [hR1id hp0]
      · exact unt1 P.2 (Or.inr (by omega))
    have hvalp : R2.getD P.2 default = l.getD high default := by
      rw [unt2 P.2 (Or.inl (by omega)), hR1p]
      exact pval
    have hsliceLow : ∀ x ∈ sliceL R1 low P.2, cmp x (l.getD high default) ≤ 0 := by
      by_cases hp0 : P.2 = 0
      · intro x hx
        rw [sliceL, hp0] at hx
        simp at hx
      · have hps : List.Perm (sliceL R1 low P.2) (sliceL P.1 low P.2) := by
          apply perm_sliceL_of_perm perm1 (by omega)
          · intro q hq
            exact unt1 q (Or.inl hq)
          · intro q hq
            exact unt1 q (Or.inr (by omega))
        have hall : ∀ x ∈ sliceL P.1 low P.2, cmp x (l.getD high default) ≤ 0 :=
          forall_mem_sliceL (fun q hlq hqP _ => ple q hlq hqP)
        intro x hx
        exact hall x (hps.mem_iff.mp hx)
    have hsliceHigh : ∀ x ∈ sliceL R2 (P.2 + 1) (high + 1),
        0 < cmp x (l.getD high default) := by
      have hps2 : List.Perm (sliceL R2 (P.2 + 1) (high + 1))
          (sliceL R1 (P.2 + 1) (high + 1)) := by
        apply perm_sliceL_of_perm perm2 (by omega)
        · intro q hq
          exact unt2 q (Or.inl hq)
        · intro q hq
          exact unt2 q (Or.inr (by omega))
      have hps3 : sliceL R1 (P.2 + 1) (high + 1) = sliceL P.1 (P.2 + 1) (high + 1) := by
        apply sliceL_congr (by omega)
        intro q hq1 hq2
        by_cases hp0 : P.2 = 0
        · rw [hR1id hp0]
        · exact unt1 q (Or.inr (by omega))
      have hall : ∀ x ∈ sliceL P.1 (P.2 + 1) (high + 1),
          0 < cmp x (l.getD high default) :=
        forall_mem_sliceL (fun q hq1 hq2 _ => pgt q (by omega) (by omega))
      intro x hx
      apply hall
      rw [← hps3]
      exact hps2.mem_iff.mp hx
    have hlow_le : ∀ q, low ≤ q → q < P.2 →
        cmp (R2.getD q default) (l.getD high default) ≤ 0 := by
      intro q hlq hqP
      rw [unt2 q (Or.inl (by omega))]
      exact hsliceLow _ (getD_mem_sliceL R1 low P.2 q hlq hqP (by omega))
    have hhigh_gt : ∀ q, P.2 < q → q ≤ high →
        0 < cmp (R2.getD q default) (l.getD high default) := by
      intro q hPq hqh
      exact hsliceHigh _ (getD_mem_sliceL R2 (P.2 + 1) (high + 1) q (by omega) (by omega)
        (by omega))
    refine ⟨by omega, ?_, ?_, ?_⟩
    · intro q hq
      have e1 : R1.getD q default = P.1.getD q default := by
        by_cases hp0 : P.2 = 0
        · rw [hR1id hp0]
        · exact unt1 q (by omega)
      rw [unt2 q (by omega), e1]
      exact punt q hq
    · exact perm2.trans (perm1.trans pperm)
    · intro a b hla hab hbh
      by_cases hbp : b < P.2
      · rw [unt2 a (Or.inl (by omega)), unt2 b (Or.inl (by omega))]
        exact sort1 a b hla hab (by omega)
      · by_cases hbp2 : b = P.2
        · subst hbp2
          rw [hvalp]
          exact hlow_le a hla (by omega)
        · by_cases hap : a < P.2
          · exact hc.le_trans _ _ _ (hlow_le a hla hap)
              (hc.le_of_pos (hhigh_gt b (by omega) hbh))
          · by_cases hap2 : a = P.2
            · subst hap2
              rw [hvalp]
              exact hc.le_of_pos (hhigh_gt b (by omega) hbh)
            · exact sort2 a b (by omega) hab hbh
termination_by high + 1 - low
decreasing_by
  · omega
  · omega

theorem partitionLoop_of_sorted (cmp : Cmp) (pivot : StockRecord) :
    ∀ (c : Nat) (l : List StockRecord) (j : Nat),
      (∀ q, j ≤ q → q < j + c → cmp (l.getD q default) pivot ≤ 0) →
      partitionLoop cmp pivot l j j c = (l, j + c) := by
  intro c
  induction c with
  | zero => intro l j _; rw [partitionLoop]; simp
  | succ c ih =>
    intro l j h
    rw [partitionLoop, if_pos (h j (le_refl j) (by omega)), swapL_self]
    rw [ih l (j + 1) (fun q h1 h2 => h q (by omega) (by omega))]
    congr 1
    omega

theorem quickSortRecursive_of_sorted (cmp : Cmp)
    (low high : Nat) (l : List StockRecord) (hh : high < l.length)
    (hsort : ∀ a b, low ≤ a → a < b → b ≤ high →
      cmp (l.getD a default) (l.getD b default) ≤ 0) :
    quickSortRecursive cmp l low high = l := by
  by_cases hlh : low < high
  · have he : low + (high - low) = high := by omega
    have hpart : partitionJS cmp l low high = (l, high) := by
      simp only [partitionJS]
      rw [partitionLoop_of_sorted cmp (l.getD high default) (high - low) l low
        (fun q h1 h2 => hsort q high h1 (by omega) (le_refl high))]
      simp [he, swapL_self]
    rw [quickSortRecursive_step cmp l low high hlh, hpart]
    rw [quickSortRecursive_of_sorted cmp low (high - 1) l (by omega)
      (fun a b h1 h2 h3 => hsort a b h1 h2 (by omega))]
    exact quickSortRecursive_of_not_lt cmp l (high + 1) high (by omega)
  · exact quickSortRecursive_of_not_lt cmp l low high hlh
termination_by high + 1 - low
decreasing_by omega

/-! Heap sort: the max-heap predicate, the sift-down specification, and the
build/extract loop invariants. -/

/-- The max-heap property restricted to parents at index `i` or later, within
the heap prefix of length `n`: every in-range child compares at most its
parent. -/
def HeapFrom (cmp : Cmp) (l : List StockRecord) (n i : Nat) : Prop :=
  ∀ j c, i ≤ j → c < n → (c = 2 * j + 1 ∨ c = 2 * j + 2) →
    cmp (l.getD c default) (l.getD j default) ≤ 0

theorem heapifyLargest_cases {cmp : Cmp} (hc : LawfulCmp cmp)
    (l : List StockRecord) (n i : Nat) :
    (heapifyLargest cmp l n i = i ∧
      (∀ c, (c = 2 * i + 1 ∨ c = 2 * i + 2) → c < n →
        cmp (l.getD c default) (l.getD i default) ≤ 0)) ∨
    (i < heapifyLargest cmp l n i ∧ heapifyLargest cmp l n i < n ∧
      (heapifyLargest cmp l n i = 2 * i + 1 ∨ heapifyLargest cmp l n i = 2 * i + 2) ∧
      cmp (l.getD i default) (l.getD (heapifyLargest cmp l n i) default) ≤ 0 ∧
      (∀ s, (s = 2 * i + 1 ∨ s = 2 * i + 2) → s ≠ heapifyLargest cmp l n i → s < n →
        cmp (l.getD s default) (l.getD (heapifyLargest cmp l n i) default) ≤ 0)) := by
  unfold heapifyLargest
  dsimp only
  split
  · next hA =>
    obtain ⟨hA1, hA2⟩ := hA
    split
    · next hB =>
      obtain ⟨hB1, hB2⟩ := hB
      right
      refine ⟨by omega, hB1, Or.inr rfl, ?_, ?_⟩
      · exact hc.le_trans _ _ _ (hc.le_of_pos hA2) (hc.le_of_pos hB2)
      · intro s hs hsne hsn
        rcases hs with rfl | rfl
        · exact hc.le_of_pos hB2
        · omega
    · next hB =>
      right
      refine ⟨by omega, hA1, Or.inl rfl, hc.le_of_pos hA2, ?_⟩
      intro s hs hsne hsn
      rcases hs with rfl | rfl
      · omega
      · have := not_and.mp hB hsn
        exact not_lt.mp this
  · next hA =>
    split
    · next hB =>
      obtain ⟨hB1, hB2⟩ := hB
      right
      refine ⟨by omega, hB1, Or.inr rfl, hc.le_of_pos hB2, ?_⟩
      intro s hs hsne hsn
      rcases hs with rfl | rfl
      · have hAle : cmp (l.getD (2 * i + 1) default) (l.getD i default) ≤ 0 :=
          not_lt.mp (not_and.mp hA hsn)
        exact hc.le_trans _ _ _ hAle (hc.le_of_pos hB2)
      · omega
    · next hB =>
      left
      refine ⟨rfl, ?_⟩
      intro c hcs hcn
      rcases hcs with rfl | rfl
      · exact not_lt.mp (not_and.mp hA hcn)
      · exact not_lt.mp (not_and.mp hB hcn)

theorem heapifyJS_spec {cmp : Cmp} (hc : LawfulCmp cmp) (n i : Nat)
    (l : List StockRecord) (hn : n ≤ l.length) (hheap : HeapFrom cmp l n (i + 1)) :
    (heapifyJS cmp l n i).length = l.length ∧
      List.Perm (heapifyJS cmp l n i) l ∧
      (∀ p, p < i ∨ (i < p ∧ p < 2 * i + 1) ∨ n ≤ p →
        (heapifyJS cmp l n i).getD p default = l.getD p default) ∧
      HeapFrom cmp (heapifyJS cmp l n i) n i ∧
      ((heapifyJS cmp l n i).getD i default = l.getD i default ∨
        ((heapifyJS cmp l n i).getD i default = l.getD (2 * i + 1) default ∧ 2 * i + 1 < n) ∨
        ((heapifyJS cmp l n i).getD i default = l.getD (2 * i + 2) default ∧ 2 * i + 2 < n)) := by
  rcases heapifyLargest_cases hc l n i with ⟨hm, hch⟩ | ⟨hmi, hmn, hmval, hile, hsib⟩
  · rw [heapifyJS, if_pos hm]
    refine ⟨rfl, List.Perm.refl l, fun p _ => rfl, ?_, Or.inl rfl⟩
    intro j c hij hcn hchild
    by_cases hji : j = i
    · subst hji
      exact hch c hchild hcn
    · exact hheap j c (by omega) hcn hchild
  · have hmne : ¬heapifyLargest cmp l n i = i := by omega
    rw [heapifyJS, if_neg hmne]
    set m := heapifyLargest cmp l n i with hmdef
    have hil : i < l.length := by omega
    have hml : m < l.length := by omega
    have hlen1 : (swapL l i m).length = l.length := length_swapL l i m
    have hswap_i : (swapL l i m).getD i default = l.getD m default :=
      getD_swapL_fst l default hil hml
    have hswap_m : (swapL l i m).getD m default = l.getD i default :=
      getD_swapL_snd l default hil hml
    have hswap_o : ∀ p, p ≠ i → p ≠ m → (swapL l i m).getD p default = l.getD p default :=
      fun p h1 h2 => getD_swapL_other l default h1 h2
    have hheap' : HeapFrom cmp (swapL l i m) n (m + 1) := by
      intro j c hij hcn hchild
      have hcj : j < c := by omega
      rw [hswap_o j (by omega) (by omega), hswap_o c (by omega) (by omega)]
      exact hheap j c (by omega) hcn hchild
    obtain ⟨rlen, rperm, runt, rheap, rroot⟩ :=
      heapifyJS_spec hc n m (swapL l i m) (by omega) hheap'
    have hRi : (heapifyJS cmp (swapL l i m) n m).getD i default = l.getD m default := by
      rw [runt i (Or.inl (by omega)), hswap_i]
    refine ⟨by omega, rperm.trans (swapL_perm l i m hil hml), ?_, ?_, ?_⟩
    · intro p hp
      have hp' : p < m ∨ (m < p ∧ p < 2 * m + 1) ∨ n ≤ p := by omega
      rw [runt p hp', hswap_o p (by omega) (by omega)]
    · intro j c hij hcn hchild
      by_cases hji : j = i
      · subst hji
        rw [hRi]
        by_cases hcm : c = m
        · subst hcm
          rcases rroot with hr | ⟨hr, hr2⟩ | ⟨hr, hr2⟩
          · rw [hr, hswap_m]
            exact hile
          · rw [hr, hswap_o (2 * m + 1) (by omega) (by omega)]
            exact hheap m (2 * m + 1) (by omega) hr2 (Or.inl rfl)
          · rw [hr, hswap_o (2 * m + 2) (by omega) (by omega)]
            exact hheap m (2 * m + 2) (by omega) hr2 (Or.inr rfl)
        · have hcsib : c < m ∨ (m < c ∧ c < 2 * m + 1) := by omega
          rw [runt c (by omega), hswap_o c (by omega) (by omega)]
          exact hsib c hchild hcm hcn
      · by_cases hjm : m ≤ j
        · exact rheap j c hjm hcn hchild
        · have hcb : m < c ∧ c < 2 * m + 1 := by omega
          rw [runt j (Or.inl (by omega)), hswap_o j (by omega) (by omega),
            runt c (Or.inr (Or.inl hcb)), hswap_o c (by omega) (by omega)]
          exact hheap j c (by omega) hcn hchild
    · rw [hRi]
      rcases hmval with hm1 | hm2
      · exact Or.inr (Or.inl ⟨by rw [hm1], by omega⟩)
      · exact Or.inr (Or.inr ⟨by rw [hm2], by omega⟩)
termination_by n - i
decreasing_by omega

theorem buildLoop_spec {cmp : Cmp} (hc : LawfulCmp cmp) :
    ∀ (k : Nat) (n : Nat) (l : List StockRecord), n ≤ l.length →
      HeapFrom cmp l n k →
      (buildLoop cmp l n k).length = l.length ∧
        List.Perm (buildLoop cmp l n k) l ∧
        (∀ p, n ≤ p → (buildLoop cmp l n k).getD p default = l.getD p default) ∧
        HeapFrom cmp (buildLoop cmp l n k) n 0
  | 0, n, l, _, hheap => by
    rw [buildLoop]
    exact ⟨rfl, List.Perm.refl l, fun p _ => rfl, hheap⟩
  | k + 1, n, l, hn, hheap => by
    rw [buildLoop]
    obtain ⟨hlen, hperm, hunt, hheap', hroot⟩ := heapifyJS_spec hc n k l hn hheap
    obtain ⟨blen, bperm, bunt, bheap⟩ :=
      buildLoop_spec hc k n (heapifyJS cmp l n k) (by omega) hheap'
    refine ⟨by omega, bperm.trans hperm, ?_, bheap⟩
    intro p hp
    rw [bunt p hp, hunt p (Or.inr (Or.inr hp))]

theorem heapFrom_zero_max {cmp : Cmp} (hc : LawfulCmp cmp) (l : List StockRecord) (n : Nat)
    (hheap : HeapFrom cmp l n 0) :
    ∀ p, p < n → cmp (l.getD p default) (l.getD 0 default) ≤ 0
  | 0, _ => cmp_refl_le hc _
  | p + 1, hp => by
    have hq : p + 1 = 2 * (p / 2) + 1 ∨ p + 1 = 2 * (p / 2) + 2 := by omega
    have h1 := hheap (p / 2) (p + 1) (Nat.zero_le _) hp hq
    have h2 := heapFrom_zero_max hc l n hheap (p / 2) (by omega)
    exact hc.le_trans _ _ _ h1 h2
termination_by p _ => p

theorem drop_eq_of_getD_eq {α : Type*} [Inhabited α] {X Y : List α} {m : Nat}
    (hlen : X.length = Y.length)
    (h : ∀ q, m ≤ q → X.getD q default = Y.getD q default) :
    X.drop m = Y.drop m := by
  apply List.ext_getElem (by simp [hlen])
  intro k hk hk'
  have h1 : m + k < X.length := by simp at hk; omega
  have h2 : m + k < Y.length := by omega
  rw [List.getElem_drop, List.getElem_drop,
    ← getD_eq_getElem_of_lt _ default h1, ← getD_eq_getElem_of_lt _ default h2]
  exact h (m + k) (by omega)

theorem extractLoop_spec {cmp : Cmp} (hc : LawfulCmp cmp) :
    ∀ (k : Nat) (l : List StockRecord), k < l.length →
      HeapFrom cmp l (k + 1) 0 →
      PairwiseLe cmp (l.drop (k + 1)) →
      (∀ p q, p ≤ k → k < q → q < l.length →
        cmp (l.getD p default) (l.getD q default) ≤ 0) →
      List.Perm (extractLoop cmp l k) l ∧ PairwiseLe cmp (extractLoop cmp l k)
  | 0, l, hk, hheap, hsorted, hcross => by
    rw [extractLoop]
    refine ⟨List.Perm.refl l, ?_⟩
    rw [PairwiseLe, List.pairwise_iff_getElem]
    intro a b ha hb hab
    rw [← getD_eq_getElem_of_lt _ default ha, ← getD_eq_getElem_of_lt _ default hb]
    by_cases ha0 : a = 0
    · subst ha0
      exact hcross 0 b (le_refl 0) (by omega) hb
    · exact pairwise_drop_getD hsorted a b (by omega) hab hb
  | k + 1, l, hk, hheap, hsorted, hcross => by
    rw [extractLoop]
    have h0l : (0 : Nat) < l.length := by omega
    have hk1l : k + 1 < l.length := by omega
    have hlen1 : (swapL l 0 (k + 1)).length = l.length := length_swapL l 0 (k + 1)
    have h1_0 : (swapL l 0 (k + 1)).getD 0 default = l.getD (k + 1) default :=
      getD_swapL_fst l default h0l hk1l
    have h1_k1 : (swapL l 0 (k + 1)).getD (k + 1) default = l.getD 0 default :=
      getD_swapL_snd l default h0l hk1l
    have h1_o : ∀ p, p ≠ 0 → p ≠ k + 1 →
        (swapL l 0 (k + 1)).getD p default = l.getD p default :=
      fun p hp1 hp2 => getD_swapL_other l default hp1 hp2
    have hheap1 : HeapFrom cmp (swapL l 0 (k + 1)) (k + 1) 1 := by
      intro j c hij hcn hchild
      rw [h1_o j (by omega) (by omega), h1_o c (by omega) (by omega)]
      exact hheap j c (Nat.zero_le j) (by omega) hchild
    obtain ⟨hlen2, hperm2, hunt2, hheap2, hroot2⟩ :=
      heapifyJS_spec hc (k + 1) 0 (swapL l 0 (k + 1)) (by omega) hheap1
    set l2 := heapifyJS cmp (swapL l 0 (k + 1)) (k + 1) 0 with hl2
    have hunt2' : ∀ p, k + 1 ≤ p → l2.getD p default = (swapL l 0 (k + 1)).getD p default :=
      fun p hp => hunt2 p (Or.inr (Or.inr hp))
    have hmax : ∀ p, p < k + 2 → cmp (l.getD p default) (l.getD 0 default) ≤ 0 :=
      heapFrom_zero_max hc l (k + 2) hheap
    have hhead : l2.getD (k + 1) default = l.getD 0 default := by
      rw [hunt2' (k + 1) (le_refl _), h1_k1]
    have hslice : List.Perm (sliceL l2 0 (k + 1)) (sliceL (swapL l 0 (k + 1)) 0 (k + 1)) :=
      perm_sliceL_of_perm hperm2 (by omega) (fun q hq => absurd hq (Nat.not_lt_zero q)) hunt2'
    have hpre : ∀ p, p ≤ k → cmp (l2.getD p default) (l.getD 0 default) ≤ 0 := by
      have hall : ∀ x ∈ sliceL (swapL l 0 (k + 1)) 0 (k + 1),
          cmp x (l.getD 0 default) ≤ 0 := by
        apply forall_mem_sliceL
        intro q hq0 hqk hql
        by_cases hq : q = 0
        · subst hq
          rw [h1_0]
          exact hmax (k + 1) (by omega)
        · rw [h1_o q hq (by omega)]
          exact hmax q (by omega)
      intro p hp
      exact hall _ (hslice.mem_iff.mp
        (getD_mem_sliceL l2 0 (k + 1) p (Nat.zero_le p) (by omega) (by omega)))
    have hpre2 : ∀ p q, p ≤ k → k + 2 ≤ q → q < l.length →
        cmp (l2.getD p default) (l.getD q default) ≤ 0 := by
      intro p q hp hq hql
      have hall : ∀ x ∈ sliceL (swapL l 0 (k + 1)) 0 (k + 1),
          cmp x (l.getD q default) ≤ 0 := by
        apply forall_mem_sliceL
        intro r hr0 hrk hrl
        by_cases hr : r = 0
        · subst hr
          rw [h1_0]
          exact hcross (k + 1) q (by omega) (by omega) hql
        · rw [h1_o r hr (by omega)]
          exact hcross r q (by omega) (by omega) hql
      exact hall _ (hslice.mem_iff.mp
        (getD_mem_sliceL l2 0 (k + 1) p (Nat.zero_le p) (by omega) (by omega)))
    have hdropEq : l2.drop (k + 2) = l.drop (k + 2) := by
      apply drop_eq_of_getD_eq (by omega)
      intro q hq
      rw [hunt2' q (by omega), h1_o q (by omega) (by omega)]
    have hsorted2 : PairwiseLe cmp (l2.drop (k + 1)) := by
      have hdropCons : l2.drop (k + 1) = l2.getD (k + 1) default :: l2.drop (k + 2) := by
        rw [List.drop_eq_getElem_cons (by omega : k + 1 < l2.length),
          getD_eq_getElem_of_lt _ _ (by omega)]
      rw [hdropCons]
      refine List.Pairwise.cons ?_ ?_
      · intro y hy
        rw [hdropEq] at hy
        obtain ⟨r, hr, rfl⟩ := List.getElem_of_mem hy
        have hr2 : k + 2 + r < l.length := by simp at hr; omega
        have he : (l.drop (k + 2))[r] = l[k + 2 + r] := List.getElem_drop ..
        rw [he, ← getD_eq_getElem_of_lt _ default hr2, hhead]
        exact hcross 0 (k + 2 + r) (by omega) (by omega) hr2
      · rw [hdropEq]
        exact hsorted
    have hcross2 : ∀ p q, p ≤ k → k < q → q < l2.length →
        cmp (l2.getD p default) (l2.getD q default) ≤ 0 := by
      intro p q hp hq hql
      by_cases hq1 : q = k + 1
      · subst hq1
        rw [hhead]
        exact hpre p hp
      · have hq2 : l2.getD q default = l.getD q default := by
          rw [hunt2' q (by omega), h1_o q (by omega) (by omega)]
        rw [hq2]
        exact hpre2 p q hp (by omega) (by omega)
    obtain ⟨eperm, esort⟩ := extractLoop_spec hc k l2 (by omega) hheap2 hsorted2 hcross2
    exact ⟨eperm.trans (hperm2.trans (swapL_perm l 0 (k + 1) h0l hk1l)), esort⟩

theorem heapSortRun_spec {cmp : Cmp} (hc : LawfulCmp cmp) (l : List StockRecord) :
    List.Perm (extractLoop cmp (buildLoop cmp l l.length (l.length / 2)) (l.length - 1)) l ∧
      PairwiseLe cmp
        (extractLoop cmp (buildLoop cmp l l.length (l.length / 2)) (l.length - 1)) := by
  have hinit : HeapFrom cmp l l.length (l.length / 2) := by
    intro j c hij hcn hchild
    omega
  obtain ⟨blen, bperm, bunt, bheap⟩ :=
    buildLoop_spec hc (l.length / 2) l.length l (le_refl _) hinit
  by_cases h0 : l.length = 0
  · have hnil : l = [] := List.eq_nil_of_length_eq_zero h0
    subst hnil
    rw [show ([] : List StockRecord).length / 2 = 0 by simp, buildLoop]
    rw [show ([] : List StockRecord).length - 1 = 0 by simp, extractLoop]
    exact ⟨List.Perm.refl [], List.Pairwise.nil⟩
  · have hk : l.length - 1 < (buildLoop cmp l l.length (l.length / 2)).length := by omega
    have hheapk : HeapFrom cmp (buildLoop cmp l l.length (l.length / 2))
        ((l.length - 1) + 1) 0 := by
      have he : l.length - 1 + 1 = l.length := by omega
      rw [he]
      exact bheap
    obtain ⟨eperm, esort⟩ := extractLoop_spec hc (l.length - 1)
      (buildLoop cmp l l.length (l.length / 2)) hk hheapk
      (by rw [List.drop_eq_nil_of_le (by omega)]; exact List.Pairwise.nil)
      (fun p q hp hq hql => by omega)
    exact ⟨eperm.trans bperm, esort⟩

theorem quickSort_spec {arr : List StockRecord} {sortBy : String} {cmp : Cmp}
    (h : compareFunctions sortBy = some cmp) :
    ∃ out, quickSort arr sortBy = .ok out ∧ List.Perm out arr ∧ PairwiseLe cmp out := by
  have hc := compareFunctions_lawful h
  unfold quickSort
  by_cases hlen : arr.length ≤ 1
  · rw [if_pos hlen]
    exact ⟨arr, rfl, List.Perm.refl arr, pairwiseLe_of_short hlen⟩
  · rw [if_neg hlen, h]
    obtain ⟨hlen', _, hperm, hsort⟩ :=
      quickSortRecursive_spec hc 0 (arr.length - 1) arr (by omega)
    refine ⟨_, rfl, hperm, ?_⟩
    rw [PairwiseLe, List.pairwise_iff_getElem]
    intro a b ha hb hab
    rw [← getD_eq_getElem_of_lt _ default ha, ← getD_eq_getElem_of_lt _ default hb]
    exact hsort a b (Nat.zero_le a) hab (by omega)

theorem mergeSort_spec {arr : List StockRecord} {sortBy : String} {cmp : Cmp}
    (h : compareFunctions sortBy = some cmp) :
    ∃ out, mergeSort arr sortBy = .ok out ∧ List.Perm out arr ∧ PairwiseLe cmp out := by
  have hc := compareFunctions_lawful h
  unfold mergeSort
  rw [h]
  exact ⟨_, rfl, mergeSortRecursive_perm cmp arr, mergeSortRecursive_sorted hc arr⟩

theorem bubbleSort_spec {arr : List StockRecord} {sortBy : String} {cmp : Cmp}
    (h : compareFunctions sortBy = some cmp) :
    ∃ out, bubbleSort arr sortBy = .ok out ∧ List.Perm out arr ∧ PairwiseLe cmp out := by
  have hc := compareFunctions_lawful h
  unfold bubbleSort
  rw [h]
  obtain ⟨hperm, hsort⟩ := bubbleLoop_spec hc (arr.length - 1) arr
    (by rw [List.drop_eq_nil_of_le (by omega)]; exact List.Pairwise.nil)
    (by intro x hx y hy; rw [List.drop_eq_nil_of_le (by omega)] at hy; simp at hy)
  exact ⟨_, rfl, hperm, hsort⟩

theorem heapSort_spec {arr : List StockRecord} {sortBy : String} {cmp : Cmp}
    (h : compareFunctions sortBy = some cmp) :
    ∃ out, heapSort arr sortBy = .ok out ∧ List.Perm out arr ∧ PairwiseLe cmp out := by
  have hc := compareFunctions_lawful h
  unfold heapSort
  rw [h]
  obtain ⟨hperm, hsort⟩ := heapSortRun_spec hc arr
  exact ⟨_, rfl, hperm, hsort⟩

end StockSorter

namespace StockRandomForest

theorem rsiInitial_nonneg (data : List Bar) :
    ∀ k, 0 ≤ (rsiInitial data k).1 ∧ 0 ≤ (rsiInitial data k).2
  | 0 => by rw [rsiInitial]; norm_num
  | k + 1 => by
    obtain ⟨h1, h2⟩ := rsiInitial_nonneg data k
    rw [rsiInitial]
    split
    · next h =>
      constructor
      · dsimp only; linarith
      · dsimp only; linarith
    · next h =>
      constructor
      · dsimp only; linarith
      · dsimp only
        have := abs_nonneg ((data.getD (k + 1) default).close_price -
          (data.getD k default).close_price)
        linarith

theorem rsi_step_nonneg {p a g : ℚ} (hp : 1 ≤ p) (ha : 0 ≤ a) (hg : 0 ≤ g) :
    0 ≤ (a * (p - 1) + g) / p := by
  apply div_nonneg _ (by linarith)
  nlinarith

theorem rsiSmooth_nonneg (data : List Bar) (period : Nat) (hp : 1 ≤ period) :
    ∀ (i : Nat) (avg : ℚ × ℚ), 0 ≤ avg.1 → 0 ≤ avg.2 →
      0 ≤ (rsiSmooth data period avg i).1 ∧ 0 ≤ (rsiSmooth data period avg i).2 := by
  intro i avg h1 h2
  have hpc : (1:ℚ) ≤ (period : ℚ) := by exact_mod_cast hp
  rw [rsiSmooth]
  split
  · next hi =>
    have hg : (0:ℚ) ≤ (if 0 < (data.getD i default).close_price -
        (data.getD (i - 1) default).close_price then
          (data.getD i default).close_price - (data.getD (i - 1) default).close_price
        else 0) := by
      split
      · next h => exact le_of_lt h
      · exact le_refl 0
    have hl : (0:ℚ) ≤ (if (data.getD i default).close_price -
        (data.getD (i - 1) default).close_price < 0 then
          |(data.getD i default).close_price - (data.getD (i - 1) default).close_price|
        else 0) := by
      split
      · exact abs_nonneg _
      · exact le_refl 0
    exact rsiSmooth_nonneg data period hp (i + 1) _
      (rsi_step_nonneg hpc h1 hg) (rsi_step_nonneg hpc h2 hl)
  · exact ⟨h1, h2⟩
termination_by i _ _ _ => data.length - i
decreasing_by omega

theorem calculateRSI_bounds (data : List Bar) (period : Nat) (hp : 1 ≤ period) :
    0 ≤ calculateRSI data period ∧ calculateRSI data period ≤ 100 := by
  have hpc : (1:ℚ) ≤ (period : ℚ) := by exact_mod_cast hp
  unfold calculateRSI
  split
  · norm_num
  · dsimp only
    have h0 := rsiInitial_nonneg data period
    have hs := rsiSmooth_nonneg data period hp (period + 1)
      ((rsiInitial data period).1 / (period : ℚ), (rsiInitial data period).2 / (period : ℚ))
      (div_nonneg h0.1 (by linarith)) (div_nonneg h0.2 (by linarith))
    split
    · norm_num
    · next hne =>
      set F := rsiSmooth data period
        ((rsiInitial data period).1 / (period : ℚ), (rsiInitial data period).2 / (period : ℚ))
        (period + 1) with hF
      have hrs : (0:ℚ) ≤ F.1 / F.2 := div_nonneg hs.1 hs.2
      have hd : 100 / (1 + F.1 / F.2) ≤ 100 := div_le_self (by norm_num) (by linarith)
      have hdp : 0 < 100 / (1 + F.1 / F.2) := div_pos (by norm_num) (by linarith)
      constructor <;> linarith

theorem calculateRSI_short (data : List Bar) (period : Nat)
    (h : data.length < period + 1) : calculateRSI data period = 50 := by
  unfold calculateRSI
  rw [if_pos h]

theorem rsiInitial_snd_zero (data : List Bar)
    (hgain : ∀ i, i + 1 < data.length →
      (data.getD i default).close_price < (data.getD (i + 1) default).close_price) :
    ∀ k, k < data.length → (rsiInitial data k).2 = 0
  | 0, _ => by rw [rsiInitial]
  | k + 1, hk => by
    rw [rsiInitial]
    have hch : 0 < (data.getD (k + 1) default).close_price -
        (data.getD k default).close_price := by
      have := hgain k hk
      linarith
    rw [if_pos hch]
    exact rsiInitial_snd_zero data hgain k (by omega)

theorem rsiSmooth_snd_zero (data : List Bar) (period : Nat)
    (hgain : ∀ i, i + 1 < data.length →
      (data.getD i default).close_price < (data.getD (i + 1) default).close_price) :
    ∀ (i : Nat) (avg : ℚ × ℚ), 1 ≤ i → avg.2 = 0 →
      (rsiSmooth data period avg i).2 = 0 := by
  intro i avg hi h2
  rw [rsiSmooth]
  split
  · next hil =>
    apply rsiSmooth_snd_zero data period hgain (i + 1) _ (by omega)
    have hch : 0 < (data.getD i default).close_price -
        (data.getD (i - 1) default).close_price := by
      have := hgain (i - 1) (by omega)
      have he : i - 1 + 1 = i := by omega
      rw [he] at this
      linarith
    have hloss : (if (data.getD i default).close_price -
        (data.getD (i - 1) default).close_price < 0 then
          |(data.getD i default).close_price - (data.getD (i - 1) default).close_price|
        else 0) = 0 := by
      rw [if_neg (by linarith)]
    dsimp only
    rw [hloss, h2]
    ring
  · exact h2
termination_by i _ _ _ => data.length - i
decreasing_by omega

theorem calculateRSI_all_gains (data : List Bar) (period : Nat)
    (hlen : period + 1 ≤ data.length)
    (hgain : ∀ i, i + 1 < data.length →
      (data.getD i default).close_price < (data.getD (i + 1) default).close_price) :
    calculateRSI data period = 100 := by
  unfold calculateRSI
  rw [if_neg (by omega)]
  dsimp only
  have hz : (rsiInitial data period).2 = 0 := rsiInitial_snd_zero data hgain period (by omega)
  have hz2 : (rsiSmooth data period
      ((rsiInitial data period).1 / (period : ℚ), (rsiInitial data period).2 / (period : ℚ))
      (period + 1)).2 = 0 := by
    apply rsiSmooth_snd_zero data period hgain (period + 1) _ (by omega)
    dsimp only
    rw [hz]
    ring
  rw [if_pos hz2]

theorem calculateTechnicalIndicators_length (data : List Bar) :
    (calculateTechnicalIndicators data).length = data.length - 26 := by
  unfold calculateTechnicalIndicators
  rw [List.length_map, List.length_range']

theorem trainTargets_length (data : List Bar) :
    (trainTargets data).length = data.length - 27 := by
  unfold trainTargets
  rw [List.length_map, List.length_range']

theorem featureAt_length (data : List Bar) (i : Nat) : (featureAt data i).length = 11 := by
  unfold featureAt
  rfl

theorem train_insufficient (st : ForecasterState) (data : List Bar)
    (h : (calculateTechnicalIndicators data).length < 30) :
    train st data =
      (TrainResult.failure "Insufficient data for training. Need at least 30 data points.",
        st) := by
  unfold train
  rw [if_pos h]

theorem train_sufficient (st : ForecasterState) (data : List Bar)
    (h : 30 ≤ (calculateTechnicalIndicators data).length) :
    train st data =
      (TrainResult.success (calculateTechnicalIndicators data).length
          ((calculateTechnicalIndicators data).getD 0 []).length,
        { isTrained := true,
          model := some { featuresX := calculateTechnicalIndicators data,
                          targetsY := trainTargets data } }) := by
  unfold train
  rw [if_neg (by omega)]

end StockRandomForest

namespace StockSorter

theorem quickSort_of_sorted {arr : List StockRecord} {sortBy : String} {cmp : Cmp}
    (h : compareFunctions sortBy = some cmp) (hs : PairwiseLe cmp arr) :
    quickSort arr sortBy = .ok arr := by
  unfold quickSort
  by_cases hlen : arr.length ≤ 1
  · rw [if_pos hlen]
  · rw [if_neg hlen, h]
    dsimp only
    rw [quickSortRecursive_of_sorted cmp 0 (arr.length - 1) arr (by omega)]
    intro a b ha hab hbh
    have hb : b < arr.length := by omega
    have := List.pairwise_iff_getElem.mp hs a b (by omega) hb hab
    rwa [getD_eq_getElem_of_lt _ _ (by omega), getD_eq_getElem_of_lt _ _ hb]

theorem mergeSort_of_sorted {arr : List StockRecord} {sortBy : String} {cmp : Cmp}
    (h : compareFunctions sortBy = some cmp) (hs : PairwiseLe cmp arr) :
    mergeSort arr sortBy = .ok arr := by
  unfold mergeSort
  rw [h]
  dsimp only
  rw [mergeSortRecursive_of_sorted arr hs]

theorem bubbleSort_of_sorted {arr : List StockRecord} {sortBy : String} {cmp : Cmp}
    (h : compareFunctions sortBy = some cmp) (hs : PairwiseLe cmp arr) :
    bubbleSort arr sortBy = .ok arr := by
  unfold bubbleSort
  rw [h]
  dsimp only
  rw [bubbleLoop_of_sorted (compareFunctions_lawful h) (arr.length - 1) arr hs]

theorem mergeSort_stable {arr : List StockRecord} {sortBy : String} {cmp : Cmp}
    (h : compareFunctions sortBy = some cmp) :
    ∃ out, mergeSort arr sortBy = .ok out ∧
      ∀ c, out.filter (classOf cmp c) = arr.filter (classOf cmp c) := by
  unfold mergeSort
  rw [h]
  exact ⟨_, rfl, fun c => mergeSortRecursive_filter (compareFunctions_lawful h) c arr⟩

theorem bubbleSort_stable {arr : List StockRecord} {sortBy : String} {cmp : Cmp}
    (h : compareFunctions sortBy = some cmp) :
    ∃ out, bubbleSort arr sortBy = .ok out ∧
      ∀ c, out.filter (classOf cmp c) = arr.filter (classOf cmp c) := by
  unfold bubbleSort
  rw [h]
  exact ⟨_, rfl, fun c => bubbleLoop_filter (compareFunctions_lawful h) c (arr.length - 1) arr⟩

theorem multiCompare_eq_zero (criteria : List String)
    (h : ∀ c ∈ criteria, compareFunctions c = none) (a b : StockRecord) :
    multiCompare criteria a b = 0 := by
  induction criteria with
  | nil => rw [multiCompare]
  | cons c rest ih =>
    rw [multiCompare, h c (by simp)]
    exact ih (fun c' hc' => h c' (by simp [hc']))

theorem multiSort_perm (arr : List StockRecord) (criteria : List String) :
    List.Perm (multiSort arr criteria) arr := by
  unfold multiSort jsArraySort
  exact mergeSortRecursive_perm _ arr

theorem multiSort_all_unknown (arr : List StockRecord) (criteria : List String)
    (h : ∀ c ∈ criteria, compareFunctions c = none) :
    multiSort arr criteria = arr := by
  unfold multiSort jsArraySort
  apply mergeSortRecursive_of_sorted
  rw [PairwiseLe, List.pairwise_iff_getElem]
  intro i j hi hj hij
  rw [multiCompare_eq_zero criteria h]

end StockSorter

namespace StockSorter

theorem smartSort_dispatch {arr : List StockRecord} {sortBy : String} {cmp : Cmp}
    (h : compareFunctions sortBy = some cmp) :
    ∃ r, smartSort arr sortBy none = Except.ok r ∧
      r.algorithm = (if arr.length ≤ 10 then "bubble"
        else if arr.length ≤ 1000 then "quick" else "merge") ∧
      r.itemCount = arr.length ∧ r.sortCriteria = sortBy ∧
      List.Perm r.sortedData arr ∧ PairwiseLe cmp r.sortedData := by
  unfold smartSort
  dsimp only
  by_cases h10 : arr.length ≤ 10
  · obtain ⟨out, hout, hperm, hsort⟩ := bubbleSort_spec h
    rw [if_pos h10, if_neg (by decide : ¬("bubble" : String) = "quick"),
      if_neg (by decide : ¬("bubble" : String) = "merge"),
      if_pos (rfl : ("bubble" : String) = "bubble"), hout]
    exact ⟨_, rfl, rfl, rfl, rfl, hperm, hsort⟩
  · by_cases h1000 : arr.length ≤ 1000
    · obtain ⟨out, hout, hperm, hsort⟩ := quickSort_spec h
      rw [if_neg h10, if_pos h1000, if_pos (rfl : ("quick" : String) = "quick"), hout]
      exact ⟨_, rfl, rfl, rfl, rfl, hperm, hsort⟩
    · obtain ⟨out, hout, hperm, hsort⟩ := mergeSort_spec h
      rw [if_neg h10, if_neg h1000, if_neg (by decide : ¬("merge" : String) = "quick"),
        if_pos (rfl : ("merge" : String) = "merge"), hout]
      exact ⟨_, rfl, rfl, rfl, rfl, hperm, hsort⟩

end StockSorter

/-- Synthetic ascending bars from the spec's end-to-end example: closes rising
0.5 per day from 100.00, constant volume 1,000,000. -/
def mkBars (n : Nat) : List Bar :=
  List.map (fun (k : Nat) => { close_price := 100 + (k : ℚ) / 2, volume := 1000000 })
    (List.range n)

theorem mkBars_length (n : Nat) : (mkBars n).length = n := by
  unfold mkBars
  rw [List.length_map, List.length_range]

theorem mkBars_getD (n k : Nat) (h : k < n) :
    (mkBars n).getD k default =
      { close_price := 100 + (k : ℚ) / 2, volume := 1000000 } := by
  have hk : k < (mkBars n).length := by rw [mkBars_length]; omega
  rw [getD_eq_getElem_of_lt _ _ hk]
  unfold mkBars
  rw [List.getElem_map, List.getElem_range]

/-- Eleven bars whose first ten have volume 1 and whose last has volume 21: the
mean of the ten volumes preceding the current bar is 1, while the mean of the
last ten volumes (current bar included) is 3. -/
def volBars : List Bar :=
  [⟨100, 1⟩, ⟨100, 1⟩, ⟨100, 1⟩, ⟨100, 1⟩, ⟨100, 1⟩,
   ⟨100, 1⟩, ⟨100, 1⟩, ⟨100, 1⟩, ⟨100, 1⟩, ⟨100, 1⟩, ⟨100, 21⟩]

/-- A record with price 10 and symbol A; ties with `tieB` under the price
criteria while remaining a distinct record. -/
def tieA : StockRecord := { close_price := some 10, symbol := some "A" }

/-- A record with price 10 and symbol B. -/
def tieB : StockRecord := { close_price := some 10, symbol := some "B" }

namespace StockRandomForest

theorem featuresCount_eleven (data : List Bar) (h : 27 ≤ data.length) :
    ((calculateTechnicalIndicators data).getD 0 []).length = 11 := by
  have h0 : 0 < (calculateTechnicalIndicators data).length := by
    rw [calculateTechnicalIndicators_length]; omega
  rw [getD_eq_getElem_of_lt _ _ h0]
  unfold calculateTechnicalIndicators
  rw [List.getElem_map]
  exact featureAt_length data _

end StockRandomForest

/-- C1 (code bug): for a 90-bar ascending input the feature loop (starting at
index 26) produces 64 feature vectors while the target loop (starting at index
27) produces only 63 next-day-close targets, so the trained arrays are NOT
parallel arrays of equal length, and `train` reports samplesUsed = 64 — not
the claimed common length 63. -/
theorem claim_C1 (data : List Bar) (h : data.length = 90) :
    (StockRandomForest.calculateTechnicalIndicators data).length = 64 ∧
      (StockRandomForest.trainTargets data).length = 63 ∧
      ∀ st, (StockRandomForest.train st data).1 =
        StockRandomForest.TrainResult.success 64 11 := by
  refine ⟨by rw [StockRandomForest.calculateTechnicalIndicators_length, h],
    by rw [StockRandomForest.trainTargets_length, h], ?_⟩
  intro st
  rw [StockRandomForest.train_sufficient st data
    (by rw [StockRandomForest.calculateTechnicalIndicators_length, h]; omega)]
  dsimp only
  rw [StockRandomForest.calculateTechnicalIndicators_length, h,
    StockRandomForest.featuresCount_eleven data (by omega)]

/-- Witness for C1 at the spec's concrete 90-bar synthetic input. -/
theorem claim_C1_witness :
    (mkBars 90).length = 90 ∧
      ((StockRandomForest.calculateTechnicalIndicators (mkBars 90)).length = 64 ∧
        (StockRandomForest.trainTargets (mkBars 90)).length = 63 ∧
        ∀ st, (StockRandomForest.train st (mkBars 90)).1 =
          StockRandomForest.TrainResult.success 64 11) :=
  ⟨mkBars_length 90, claim_C1 (mkBars 90) (mkBars_length 90)⟩

/-- C4: RSI(14) always lies in [0, 100]; it is exactly 50 when fewer than 15
bars are supplied, and exactly 100 when at least 15 bars are supplied and every
consecutive close-to-close change is a gain. -/
theorem claim_C4 (data : List Bar) :
    (0 ≤ StockRandomForest.calculateRSI data 14 ∧
      StockRandomForest.calculateRSI data 14 ≤ 100) ∧
    (data.length < 15 → StockRandomForest.calculateRSI data 14 = 50) ∧
    (15 ≤ data.length →
      (∀ i, i < data.length - 1 →
        (data.getD i default).close_price < (data.getD (i + 1) default).close_price) →
      StockRandomForest.calculateRSI data 14 = 100) :=
  ⟨StockRandomForest.calculateRSI_bounds data 14 (by omega),
   fun h => StockRandomForest.calculateRSI_short data 14 (by omega),
   fun h1 h2 => StockRandomForest.calculateRSI_all_gains data 14 (by omega)
     (fun i hi => h2 i (by omega))⟩

/-- Witness for C4: a 5-bar input yields the neutral 50, and a strictly rising
16-bar input yields 100. -/
theorem claim_C4_witness :
    ((mkBars 5).length < 15 ∧ StockRandomForest.calculateRSI (mkBars 5) 14 = 50) ∧
      (15 ≤ (mkBars 16).length ∧
        (∀ i, i < (mkBars 16).length - 1 →
          ((mkBars 16).getD i default).close_price <
            ((mkBars 16).getD (i + 1) default).close_price) ∧
        StockRandomForest.calculateRSI (mkBars 16) 14 = 100) := by
  have h5 : (mkBars 5).length < 15 := by rw [mkBars_length]; omega
  have h16 : 15 ≤ (mkBars 16).length := by rw [mkBars_length]; omega
  have hgain : ∀ i, i < (mkBars 16).length - 1 →
      ((mkBars 16).getD i default).close_price <
        ((mkBars 16).getD (i + 1) default).close_price := by
    intro i hi
    rw [mkBars_length] at hi
    rw [mkBars_getD 16 i (by omega), mkBars_getD 16 (i + 1) (by omega)]
    have hc : (i : ℚ) < (i + 1 : Nat) := by push_cast; linarith
    dsimp only
    linarith
  exact ⟨⟨h5, (claim_C4 (mkBars 5)).2.1 h5⟩,
    ⟨h16, hgain, (claim_C4 (mkBars 16)).2.2 h16 hgain⟩⟩

/-- C5: when the indicator pipeline yields fewer than 30 feature vectors,
`train` fails with the insufficient-data error and leaves the forecaster state
untouched (a fresh instance stays untrained with no model installed); with 30
or more feature vectors it succeeds and installs a model. -/
theorem claim_C5 (data : List Bar) (st : StockRandomForest.ForecasterState) :
    ((StockRandomForest.calculateTechnicalIndicators data).length < 30 →
      StockRandomForest.train st data =
        (StockRandomForest.TrainResult.failure
          "Insufficient data for training. Need at least 30 data points.", st)) ∧
    (30 ≤ (StockRandomForest.calculateTechnicalIndicators data).length →
      ∃ cnt, StockRandomForest.train st data =
        (StockRandomForest.TrainResult.success
            (StockRandomForest.calculateTechnicalIndicators data).length cnt,
          { isTrained := true,
            model := some
              { featuresX := StockRandomForest.calculateTechnicalIndicators data,
                targetsY := StockRandomForest.trainTargets data } })) :=
  ⟨fun h => StockRandomForest.train_insufficient st data h,
   fun h => ⟨_, StockRandomForest.train_sufficient st data h⟩⟩

/-- Witness for C5: 55 bars give exactly 29 feature vectors and a failing,
state-preserving train on a fresh instance; 56 bars give 30 and success. -/
theorem claim_C5_witness :
    ((StockRandomForest.calculateTechnicalIndicators (mkBars 55)).length < 30 ∧
      StockRandomForest.train { isTrained := false, model := none } (mkBars 55) =
        (StockRandomForest.TrainResult.failure
          "Insufficient data for training. Need at least 30 data points.",
          { isTrained := false, model := none })) ∧
    (30 ≤ (StockRandomForest.calculateTechnicalIndicators (mkBars 56)).length ∧
      ∃ cnt, StockRandomForest.train { isTrained := false, model := none } (mkBars 56) =
        (StockRandomForest.TrainResult.success
            (StockRandomForest.calculateTechnicalIndicators (mkBars 56)).length cnt,
          { isTrained := true,
            model := some
              { featuresX := StockRandomForest.calculateTechnicalIndicators (mkBars 56),
                targetsY := StockRandomForest.trainTargets (mkBars 56) } })) := by
  have h1 : (StockRandomForest.calculateTechnicalIndicators (mkBars 55)).length < 30 := by
    rw [StockRandomForest.calculateTechnicalIndicators_length, mkBars_length]
    omega
  have h2 : 30 ≤ (StockRandomForest.calculateTechnicalIndicators (mkBars 56)).length := by
    rw [StockRandomForest.calculateTechnicalIndicators_length, mkBars_length]
  exact ⟨⟨h1, (claim_C5 (mkBars 55) _).1 h1⟩, h2, (claim_C5 (mkBars 56) _).2 h2⟩

/-- C6 counterexample: on eleven bars with volumes 1,…,1,21 the code divides
the current volume by the mean of the LAST ten volumes (3, current bar
included), giving 7 — not by the mean of the ten volumes PRECEDING the current
bar (1), which the claim demands and which would give 21. -/
theorem claim_C6_counterexample :
    StockRandomForest.calculateVolumeRatio volBars 10 = 7 ∧
      (volBars.getD (volBars.length - 1) default).volume /
        ((List.foldl (fun sum item => sum + item.volume) 0 (volBars.take 10)) / (10 : ℚ))
        = 21 ∧
      StockRandomForest.calculateVolumeRatio volBars 10 ≠
        (volBars.getD (volBars.length - 1) default).volume /
          ((List.foldl (fun sum item => sum + item.volume) 0 (volBars.take 10)) /
            (10 : ℚ)) := by
  refine ⟨?h1, ?h2, ?h3⟩
  case h1 => norm_num [StockRandomForest.calculateVolumeRatio, volBars]
  case h2 => norm_num [volBars]
  case h3 => norm_num [StockRandomForest.calculateVolumeRatio, volBars]

/-- C6 amended: with at least 10 bars the volume ratio is the current bar's
volume divided by the mean volume of the last ten bars INCLUDING the current
one, falling back to 1 when that mean is not positive; with fewer than 10 bars
it is 1. -/
theorem claim_C6 (data : List Bar) :
    (10 ≤ data.length →
      StockRandomForest.calculateVolumeRatio data 10 =
        (if 0 < (List.foldl (fun sum item => sum + item.volume) 0
              (data.drop (data.length - 10))) / (10 : ℚ) then
          (data.getD (data.length - 1) default).volume /
            ((List.foldl (fun sum item => sum + item.volume) 0
              (data.drop (data.length - 10))) / (10 : ℚ))
        else 1)) ∧
    (data.length < 10 → StockRandomForest.calculateVolumeRatio data 10 = 1) := by
  constructor
  · intro h
    unfold StockRandomForest.calculateVolumeRatio
    rw [if_neg (by omega)]
    dsimp only
    norm_num
  · intro h
    unfold StockRandomForest.calculateVolumeRatio
    rw [if_pos h]

/-- Witness for C6 at the eleven-bar input: the ratio is current volume over
the mean of the last ten volumes. -/
theorem claim_C6_witness :
    10 ≤ volBars.length ∧
      StockRandomForest.calculateVolumeRatio volBars 10 =
        (if 0 < (List.foldl (fun sum item => sum + item.volume) 0
              (volBars.drop (volBars.length - 10))) / (10 : ℚ) then
          (volBars.getD (volBars.length - 1) default).volume /
            ((List.foldl (fun sum item => sum + item.volume) 0
              (volBars.drop (volBars.length - 10))) / (10 : ℚ))
        else 1) :=
  ⟨by norm_num [volBars], (claim_C6 volBars).1 (by norm_num [volBars])⟩

/-- The ascending-price comparator, the registry entry for "price_asc". -/
def cmpPriceAsc : Cmp := fun a b => priceKey a - priceKey b

theorem cmpPriceAsc_registry :
    StockSorter.compareFunctions "price_asc" = some cmpPriceAsc := rfl

theorem priceKey_tieA : priceKey tieA = 10 := by norm_num [priceKey, tieA, jsNum]

theorem priceKey_tieB : priceKey tieB = 10 := by norm_num [priceKey, tieB, jsNum]

theorem tiePair_sorted : StockSorter.PairwiseLe cmpPriceAsc [tieA, tieB] := by
  unfold StockSorter.PairwiseLe
  simp only [List.pairwise_cons, List.mem_singleton, List.mem_nil_iff,
    List.not_mem_nil, IsEmpty.forall_iff, implies_true, and_true]
  refine ⟨fun b hb => ?_, trivial, List.Pairwise.nil⟩
  subst hb
  rw [cmpPriceAsc, priceKey_tieA, priceKey_tieB]
  norm_num

/-- C2: for every record list and every criterion name in the comparator
registry, each of quickSort, mergeSort, heapSort and bubbleSort succeeds and
returns a permutation of the input that is pairwise non-decreasing under the
criterion's comparator (descending criteria carry the direction inside the
comparator). -/
theorem claim_C2 (arr : List StockRecord) (sortBy : String) (cmp : Cmp)
    (h : StockSorter.compareFunctions sortBy = some cmp) :
    (∃ out, StockSorter.quickSort arr sortBy = .ok out ∧ List.Perm out arr ∧
      StockSorter.PairwiseLe cmp out) ∧
    (∃ out, StockSorter.mergeSort arr sortBy = .ok out ∧ List.Perm out arr ∧
      StockSorter.PairwiseLe cmp out) ∧
    (∃ out, StockSorter.heapSort arr sortBy = .ok out ∧ List.Perm out arr ∧
      StockSorter.PairwiseLe cmp out) ∧
    (∃ out, StockSorter.bubbleSort arr sortBy = .ok out ∧ List.Perm out arr ∧
      StockSorter.PairwiseLe cmp out) :=
  ⟨StockSorter.quickSort_spec h, StockSorter.mergeSort_spec h,
   StockSorter.heapSort_spec h, StockSorter.bubbleSort_spec h⟩

/-- Witness for C2 at the registered criterion "price_asc" and a concrete
two-record list. -/
theorem claim_C2_witness :
    StockSorter.compareFunctions "price_asc" = some cmpPriceAsc ∧
      ((∃ out, StockSorter.quickSort [tieB, tieA] "price_asc" = .ok out ∧
          List.Perm out [tieB, tieA] ∧ StockSorter.PairwiseLe cmpPriceAsc out) ∧
       (∃ out, StockSorter.mergeSort [tieB, tieA] "price_asc" = .ok out ∧
          List.Perm out [tieB, tieA] ∧ StockSorter.PairwiseLe cmpPriceAsc out) ∧
       (∃ out, StockSorter.heapSort [tieB, tieA] "price_asc" = .ok out ∧
          List.Perm out [tieB, tieA] ∧ StockSorter.PairwiseLe cmpPriceAsc out) ∧
       (∃ out, StockSorter.bubbleSort [tieB, tieA] "price_asc" = .ok out ∧
          List.Perm out [tieB, tieA] ∧ StockSorter.PairwiseLe cmpPriceAsc out)) :=
  ⟨cmpPriceAsc_registry, claim_C2 [tieB, tieA] "price_asc" cmpPriceAsc cmpPriceAsc_registry⟩

/-- C3: mergeSort and bubbleSort are stable: for every comparator class, the
subsequence of output records in that class equals the subsequence of input
records in that class, so tied records keep their original relative order. -/
theorem claim_C3 (arr : List StockRecord) (sortBy : String) (cmp : Cmp)
    (h : StockSorter.compareFunctions sortBy = some cmp) :
    (∃ out, StockSorter.mergeSort arr sortBy = .ok out ∧
      ∀ c, out.filter (StockSorter.classOf cmp c) = arr.filter (StockSorter.classOf cmp c)) ∧
    (∃ out, StockSorter.bubbleSort arr sortBy = .ok out ∧
      ∀ c, out.filter (StockSorter.classOf cmp c) = arr.filter (StockSorter.classOf cmp c)) :=
  ⟨StockSorter.mergeSort_stable h, StockSorter.bubbleSort_stable h⟩

/-- Witness for C3 at "price_asc" on a concrete two-record list. -/
theorem claim_C3_witness :
    StockSorter.compareFunctions "price_asc" = some cmpPriceAsc ∧
      ((∃ out, StockSorter.mergeSort [tieB, tieA] "price_asc" = .ok out ∧
        ∀ c, out.filter (StockSorter.classOf cmpPriceAsc c) =
          [tieB, tieA].filter (StockSorter.classOf cmpPriceAsc c)) ∧
       (∃ out, StockSorter.bubbleSort [tieB, tieA] "price_asc" = .ok out ∧
        ∀ c, out.filter (StockSorter.classOf cmpPriceAsc c) =
          [tieB, tieA].filter (StockSorter.classOf cmpPriceAsc c))) :=
  ⟨cmpPriceAsc_registry, claim_C3 [tieB, tieA] "price_asc" cmpPriceAsc cmpPriceAsc_registry⟩

/-- C7 (corrected): with a criterion name missing from the registry, mergeSort,
heapSort and bubbleSort always fail with the InvalidCriterion error, and
quickSort fails whenever the list has at least two elements; but quickSort's
length-check precedes its registry lookup, so on lists of length ≤ 1 it
returns the list unchanged instead of failing. With a registered criterion no
algorithm fails, so InvalidCriterion is the only failure path. -/
theorem claim_C7 (arr : List StockRecord) (sortBy : String)
    (h : StockSorter.compareFunctions sortBy = none) :
    StockSorter.mergeSort arr sortBy = .error ("Invalid sort criteria: " ++ sortBy) ∧
    StockSorter.heapSort arr sortBy = .error ("Invalid sort criteria: " ++ sortBy) ∧
    StockSorter.bubbleSort arr sortBy = .error ("Invalid sort criteria: " ++ sortBy) ∧
    (2 ≤ arr.length →
      StockSorter.quickSort arr sortBy = .error ("Invalid sort criteria: " ++ sortBy)) ∧
    (arr.length ≤ 1 → StockSorter.quickSort arr sortBy = .ok arr) ∧
    (∀ sortBy2 cmp2, StockSorter.compareFunctions sortBy2 = some cmp2 →
      (∃ out, StockSorter.quickSort arr sortBy2 = .ok out) ∧
      (∃ out, StockSorter.mergeSort arr sortBy2 = .ok out) ∧
      (∃ out, StockSorter.heapSort arr sortBy2 = .ok out) ∧
      (∃ out, StockSorter.bubbleSort arr sortBy2 = .ok out)) := by
  refine ⟨?_, ?_, ?_, ?_, ?_, ?_⟩
  · unfold StockSorter.mergeSort
    rw [h]
  · unfold StockSorter.heapSort
    rw [h]
  · unfold StockSorter.bubbleSort
    rw [h]
  · intro h2
    unfold StockSorter.quickSort
    rw [if_neg (by omega), h]
  · intro h1
    unfold StockSorter.quickSort
    rw [if_pos h1]
  · intro sortBy2 cmp2 h2
    obtain ⟨o1, ho1, -, -⟩ := StockSorter.quickSort_spec h2
    obtain ⟨o2, ho2, -, -⟩ := StockSorter.mergeSort_spec h2
    obtain ⟨o3, ho3, -, -⟩ := StockSorter.heapSort_spec h2
    obtain ⟨o4, ho4, -, -⟩ := StockSorter.bubbleSort_spec h2
    exact ⟨⟨o1, ho1⟩, ⟨o2, ho2⟩, ⟨o3, ho3⟩, ⟨o4, ho4⟩⟩

/-- Witness for C7 at the unknown criterion "bogus": the two-element list
fails on all four algorithms, while the one-element list slips through
quickSort unchanged. -/
theorem claim_C7_witness :
    StockSorter.compareFunctions "bogus" = none ∧
      StockSorter.mergeSort [tieA, tieB] "bogus" =
        .error ("Invalid sort criteria: " ++ "bogus") ∧
      StockSorter.heapSort [tieA, tieB] "bogus" =
        .error ("Invalid sort criteria: " ++ "bogus") ∧
      StockSorter.bubbleSort [tieA, tieB] "bogus" =
        .error ("Invalid sort criteria: " ++ "bogus") ∧
      StockSorter.quickSort [tieA, tieB] "bogus" =
        .error ("Invalid sort criteria: " ++ "bogus") ∧
      StockSorter.quickSort [tieA] "bogus" = .ok [tieA] := by
  have h1 := claim_C7 [tieA, tieB] "bogus" rfl
  have h2 := claim_C7 [tieA] "bogus" rfl
  exact ⟨rfl, h1.1, h1.2.1, h1.2.2.1, h1.2.2.2.1 (by norm_num),
    h2.2.2.2.2.1 (by norm_num)⟩

/-- C8: without a pinned algorithm, smartSort picks bubble sort for n ≤ 10,
quick sort for 10 < n ≤ 1000 and merge sort for n > 1000, and reports the
selected algorithm's name in the result's algorithm field. -/
theorem claim_C8 (arr : List StockRecord) (sortBy : String) (cmp : Cmp)
    (h : StockSorter.compareFunctions sortBy = some cmp) :
    ∃ r, StockSorter.smartSort arr sortBy none = Except.ok r ∧
      r.algorithm = (if arr.length ≤ 10 then "bubble"
        else if arr.length ≤ 1000 then "quick" else "merge") ∧
      r.itemCount = arr.length := by
  obtain ⟨r, h1, h2, h3, -⟩ := StockSorter.smartSort_dispatch h
  exact ⟨r, h1, h2, h3⟩

/-- Witness for C8: 5, 500 and 5000 copies of a record sorted by "price_asc"
report bubble, quick and merge respectively. -/
theorem claim_C8_witness :
    StockSorter.compareFunctions "price_asc" = some cmpPriceAsc ∧
      (∃ r, StockSorter.smartSort (List.replicate 5 tieA) "price_asc" none =
          Except.ok r ∧ r.algorithm = "bubble") ∧
      (∃ r, StockSorter.smartSort (List.replicate 500 tieA) "price_asc" none =
          Except.ok r ∧ r.algorithm = "quick") ∧
      (∃ r, StockSorter.smartSort (List.replicate 5000 tieA) "price_asc" none =
          Except.ok r ∧ r.algorithm = "merge") := by
  refine ⟨cmpPriceAsc_registry, ?_, ?_, ?_⟩
  · obtain ⟨r, h1, h2, -⟩ :=
      claim_C8 (List.replicate 5 tieA) "price_asc" cmpPriceAsc cmpPriceAsc_registry
    exact ⟨r, h1, by rw [h2, List.length_replicate]; norm_num⟩
  · obtain ⟨r, h1, h2, -⟩ :=
      claim_C8 (List.replicate 500 tieA) "price_asc" cmpPriceAsc cmpPriceAsc_registry
    exact ⟨r, h1, by rw [h2, List.length_replicate]; norm_num⟩
  · obtain ⟨r, h1, h2, -⟩ :=
      claim_C8 (List.replicate 5000 tieA) "price_asc" cmpPriceAsc cmpPriceAsc_registry
    exact ⟨r, h1, by rw [h2, List.length_replicate]; norm_num⟩

/-- C10: multiSort never fails: it always returns a permutation of the input;
a criterion name missing from the registry is skipped inside the combined
comparator rather than raising InvalidCriterion; and when every supplied
criterion is unknown the input order is preserved exactly. -/
theorem claim_C10 (arr : List StockRecord) (criteria : List String) :
    List.Perm (StockSorter.multiSort arr criteria) arr ∧
    (∀ c rest a b, StockSorter.compareFunctions c = none →
      StockSorter.multiCompare (c :: rest) a b = StockSorter.multiCompare rest a b) ∧
    ((∀ c ∈ criteria, StockSorter.compareFunctions c = none) →
      StockSorter.multiSort arr criteria = arr) := by
  refine ⟨StockSorter.multiSort_perm arr criteria, ?_,
    fun h => StockSorter.multiSort_all_unknown arr criteria h⟩
  intro c rest a b hc
  rw [StockSorter.multiCompare, hc]

/-- Witness for C10: with the single unknown criterion "bogus" the input
order is preserved exactly. -/
theorem claim_C10_witness :
    (∀ c ∈ (["bogus"] : List String), StockSorter.compareFunctions c = none) ∧
      StockSorter.multiSort [tieA, tieB] ["bogus"] = [tieA, tieB] := by
  have h : ∀ c ∈ (["bogus"] : List String), StockSorter.compareFunctions c = none := by
    intro c hc
    rw [List.mem_singleton] at hc
    subst hc
    rfl
  exact ⟨h, (claim_C10 [tieA, tieB] ["bogus"]).2.2 h⟩

theorem heapifyLargest_tie0 :
    StockSorter.heapifyLargest cmpPriceAsc [tieA, tieB] 2 0 = 0 := by
  unfold StockSorter.heapifyLargest
  dsimp only
  rw [if_neg, if_neg]
  · rintro ⟨-, hq⟩
    rw [List.getD_cons_succ, List.getD_cons_zero, List.getD_cons_zero,
      cmpPriceAsc, priceKey_tieA, priceKey_tieB] at hq
    norm_num at hq
  · rintro ⟨h2, -⟩
    omega

theorem heapifyLargest_tie1 :
    StockSorter.heapifyLargest cmpPriceAsc [tieB, tieA] 1 0 = 0 := by
  unfold StockSorter.heapifyLargest
  dsimp only
  rw [if_neg, if_neg]
  · rintro ⟨h2, -⟩
    omega
  · rintro ⟨h1, -⟩
    omega

theorem heapSort_tie_swap :
    StockSorter.heapSort [tieA, tieB] "price_asc" = .ok [tieB, tieA] := by
  have hH0 : StockSorter.heapifyJS cmpPriceAsc [tieA, tieB] 2 0 = [tieA, tieB] := by
    rw [StockSorter.heapifyJS, if_pos heapifyLargest_tie0]
  have hH1 : StockSorter.heapifyJS cmpPriceAsc [tieB, tieA] 1 0 = [tieB, tieA] := by
    rw [StockSorter.heapifyJS, if_pos heapifyLargest_tie1]
  have hB : StockSorter.buildLoop cmpPriceAsc [tieA, tieB] 2 1 = [tieA, tieB] := by
    have e1 : StockSorter.buildLoop cmpPriceAsc [tieA, tieB] 2 1 =
        StockSorter.buildLoop cmpPriceAsc
          (StockSorter.heapifyJS cmpPriceAsc [tieA, tieB] 2 0) 2 0 := rfl
    rw [e1, hH0]
    rfl
  have hsw : swapL [tieA, tieB] 0 1 = [tieB, tieA] := rfl
  have hE : StockSorter.extractLoop cmpPriceAsc [tieA, tieB] 1 = [tieB, tieA] := by
    have e1 : StockSorter.extractLoop cmpPriceAsc [tieA, tieB] 1 =
        StockSorter.extractLoop cmpPriceAsc
          (StockSorter.heapifyJS cmpPriceAsc (swapL [tieA, tieB] 0 1) 1 0) 0 := rfl
    rw [e1, hsw, hH1]
    rfl
  unfold StockSorter.heapSort
  rw [cmpPriceAsc_registry]
  dsimp only
  show Except.ok
    (StockSorter.extractLoop cmpPriceAsc
      (StockSorter.buildLoop cmpPriceAsc [tieA, tieB] 2 1) 1) = _
  rw [hB, hE]

/-- C9 counterexample: the two-record list [tieA, tieB] is already sorted under
"price_asc" (both records have price 10, so they tie), yet heapSort returns
the records in the opposite order. -/
theorem claim_C9_counterexample :
    StockSorter.compareFunctions "price_asc" = some cmpPriceAsc ∧
      StockSorter.PairwiseLe cmpPriceAsc [tieA, tieB] ∧
      StockSorter.heapSort [tieA, tieB] "price_asc" = .ok [tieB, tieA] ∧
      ([tieB, tieA] : List StockRecord) ≠ [tieA, tieB] := by
  refine ⟨cmpPriceAsc_registry, tiePair_sorted, heapSort_tie_swap, ?_⟩
  intro hcontra
  have := List.head_eq_of_cons_eq hcontra
  rw [tieA, tieB] at this
  simp at this

/-- C9 amended: quickSort, mergeSort and bubbleSort return an already-sorted
list unchanged, position by position; heapSort is excluded because it may
reorder records that compare equal (it still returns a sorted permutation). -/
theorem claim_C9 (arr : List StockRecord) (sortBy : String) (cmp : Cmp)
    (h : StockSorter.compareFunctions sortBy = some cmp)
    (hs : StockSorter.PairwiseLe cmp arr) :
    StockSorter.quickSort arr sortBy = .ok arr ∧
    StockSorter.mergeSort arr sortBy = .ok arr ∧
    StockSorter.bubbleSort arr sortBy = .ok arr :=
  ⟨StockSorter.quickSort_of_sorted h hs, StockSorter.mergeSort_of_sorted h hs,
   StockSorter.bubbleSort_of_sorted h hs⟩

/-- Witness for C9 at "price_asc" on the already-sorted tied pair. -/
theorem claim_C9_witness :
    StockSorter.compareFunctions "price_asc" = some cmpPriceAsc ∧
      StockSorter.PairwiseLe cmpPriceAsc [tieA, tieB] ∧
      StockSorter.quickSort [tieA, tieB] "price_asc" = .ok [tieA, tieB] ∧
      StockSorter.mergeSort [tieA, tieB] "price_asc" = .ok [tieA, tieB] ∧
      StockSorter.bubbleSort [tieA, tieB] "price_asc" = .ok [tieA, tieB] := by
  obtain ⟨h1, h2, h3⟩ :=
    claim_C9 [tieA, tieB] "price_asc" cmpPriceAsc cmpPriceAsc_registry tiePair_sorted
  exact ⟨cmpPriceAsc_registry, tiePair_sorted, h1, h2, h3⟩

/-- C7 counterexample: "bogus" is not in the registry, yet quickSort on a
one-element list succeeds, returning the list unchanged, because its length
check precedes the registry lookup. -/
theorem claim_C7_counterexample :
    StockSorter.compareFunctions "bogus" = none ∧
      StockSorter.quickSort [tieA] "bogus" = .ok [tieA] :=
  ⟨rfl, rfl⟩
